import Mathlib

set_option maxRecDepth 40000

/-!
A verification development for the Wikipedia duplicated-citations merger.

The program is a two-pass text rewriter over wiki source text:
a first pass (`get_duplicated_refs`) finds citation payloads that occur
more than once and assigns each payload a short-name, and a second pass
(`merge_go`) rewrites the article, replacing repeated occurrences of a
duplicated payload by self-closing back-references.

The embedding below translates the program faithfully:

* Text is `List Char`.  The regular expressions of the source
  (`REF_PATTERN`, `NAME_ATTR_PATTERN`, `URL_PATTERN` and the two template
  patterns) are embedded as explicit deterministic matching functions that
  realise the backtracking semantics of the Python `re` engine on these
  particular patterns.  The character classes for the shorthand classes
  of the patterns are modelled over their ASCII ranges.
* The `hashlib.md5` digest used by the short-name generator is implemented
  in full (`md5hex`), operating on the UTF-8 bytes of the payload.
* The `assert` in `CitationDatabase.add` makes the operation fallible:
  `add` returns an `Option`, and so do the scanner and `merge`
  (`none` models the `AssertionError` abort).
* Python `set` objects are modelled as insertion-ordered duplicate-free
  lists; membership is faithful, iteration order of CPython sets is
  implementation defined.
-/

namespace WDCM

/-- Text is a list of characters. -/
abbrev Str := List Char

/-! ## Character classes -/

/-- ASCII range of the regex class for a word character. -/
def isWordChar (c : Char) : Bool :=
  ('a' ≤ c && c ≤ 'z') || ('A' ≤ c && c ≤ 'Z') || ('0' ≤ c && c ≤ '9') || c = '_'

/-- ASCII range of the regex class for a whitespace character. -/
def isSpaceChar (c : Char) : Bool :=
  c = ' ' || c = '\t' || c = '\n' || c = '\x0d' || c = '\x0b' || c = '\x0c'

/-- ASCII letters and digits. -/
def isAlphaNumChar (c : Char) : Bool :=
  ('a' ≤ c && c ≤ 'z') || ('A' ≤ c && c ≤ 'Z') || ('0' ≤ c && c ≤ '9')

/-! ## MD5 (as used by `hashlib.md5(payload.encode()).hexdigest()`) -/

/-- UTF-8 encoding of one character, as byte values. -/
def utf8EncodeChar (c : Char) : List Nat :=
  let n := c.toNat
  if n < 128 then [n]
  else if n < 2048 then [192 + n / 64, 128 + n % 64]
  else if n < 65536 then [224 + n / 4096, 128 + (n / 64) % 64, 128 + n % 64]
  else [240 + n / 262144, 128 + (n / 4096) % 64, 128 + (n / 64) % 64, 128 + n % 64]

/-- UTF-8 bytes of a text, mirroring Python `str.encode()`. -/
def strBytes (s : Str) : List Nat := (s.map utf8EncodeChar).flatten

/-- 32-bit left rotation. -/
def rotl32 (x n : Nat) : Nat :=
  ((x <<< n) ||| (x >>> (32 - n))) % 4294967296

/-- The MD5 sine-derived constant table. -/
def md5K : List Nat :=
  [3614090360, 3905402710, 606105819, 3250441966, 4118548399, 1200080426,
   2821735955, 4249261313, 1770035416, 2336552879, 4294925233, 2304563134,
   1804603682, 4254626195, 2792965006, 1236535329, 4129170786, 3225465664,
   643717713, 3921069994, 3593408605, 38016083, 3634488961, 3889429448,
   568446438, 3275163606, 4107603335, 1163531501, 2850285829, 4243563512,
   1735328473, 2368359562, 4294588738, 2272392833, 1839030562, 4259657740,
   2763975236, 1272893353, 4139469664, 3200236656, 681279174, 3936430074,
   3572445317, 76029189, 3654602809, 3873151461, 530742520, 3299628645,
   4096336452, 1126891415, 2878612391, 4237533241, 1700485571, 2399980690,
   4293915773, 2240044497, 1873313359, 4264355552, 2734768916, 1309151649,
   4149444226, 3174756917, 718787259, 3951481745]

/-- The MD5 per-round shift amounts. -/
def md5S : List Nat :=
  [7, 12, 17, 22, 7, 12, 17, 22, 7, 12, 17, 22, 7, 12, 17, 22,
   5, 9, 14, 20, 5, 9, 14, 20, 5, 9, 14, 20, 5, 9, 14, 20,
   4, 11, 16, 23, 4, 11, 16, 23, 4, 11, 16, 23, 4, 11, 16, 23,
   6, 10, 15, 21, 6, 10, 15, 21, 6, 10, 15, 21, 6, 10, 15, 21]

/-- A number as `k` little-endian bytes. -/
def natToLE : Nat → Nat → List Nat
  | 0, _ => []
  | k + 1, n => (n % 256) :: natToLE k (n / 256)

/-- MD5 padding: append `0x80`, zero bytes to 56 mod 64, then the bit length. -/
def md5Pad (msg : List Nat) : List Nat :=
  let len := msg.length
  let zeros := (64 + 56 - (len + 1) % 64) % 64
  msg ++ [128] ++ List.replicate zeros 0 ++ natToLE 8 (len * 8)

/-- Group bytes into 32-bit little-endian words. -/
def bytesToWords : List Nat → List Nat
  | b0 :: b1 :: b2 :: b3 :: t =>
      (b0 + 256 * b1 + 65536 * b2 + 16777216 * b3) :: bytesToWords t
  | _ => []

/-- One MD5 round on state `(a, b, c, d)` with message words `M`. -/
def md5Round (M : List Nat) (st : Nat × Nat × Nat × Nat) (i : Nat) :
    Nat × Nat × Nat × Nat :=
  let a := st.1
  let b := st.2.1
  let c := st.2.2.1
  let d := st.2.2.2
  let f :=
    if i < 16 then (b &&& c) ||| ((4294967295 ^^^ b) &&& d)
    else if i < 32 then (d &&& b) ||| ((4294967295 ^^^ d) &&& c)
    else if i < 48 then b ^^^ c ^^^ d
    else c ^^^ (b ||| (4294967295 ^^^ d))
  let g :=
    if i < 16 then i
    else if i < 32 then (5 * i + 1) % 16
    else if i < 48 then (3 * i + 5) % 16
    else (7 * i) % 16
  let tmp := (a + f + md5K.getD i 0 + M.getD g 0) % 4294967296
  (d, (b + rotl32 tmp (md5S.getD i 0)) % 4294967296, b, c)

/-- Process one 64-byte chunk. -/
def md5Chunk (chunk : List Nat) (st : Nat × Nat × Nat × Nat) :
    Nat × Nat × Nat × Nat :=
  let M := bytesToWords chunk
  let r := (List.range 64).foldl (fun acc i => md5Round M acc i) st
  ((st.1 + r.1) % 4294967296, (st.2.1 + r.2.1) % 4294967296,
   (st.2.2.1 + r.2.2.1) % 4294967296, (st.2.2.2 + r.2.2.2) % 4294967296)

/-- Process all 64-byte chunks of a padded message.  The loop is
structural on a fuel argument so that it reduces in the kernel; the
wrapper supplies the byte count as fuel, which bounds the iteration
count since every iteration consumes 64 bytes. -/
def md5ChunksF : Nat → List Nat → Nat × Nat × Nat × Nat → Nat × Nat × Nat × Nat
  | _, [], st => st
  | 0, _, st => st
  | f + 1, b :: t, st => md5ChunksF f ((b :: t).drop 64) (md5Chunk ((b :: t).take 64) st)

/-- Process all 64-byte chunks of a padded message. -/
def md5Chunks (bytes : List Nat) (st : Nat × Nat × Nat × Nat) :
    Nat × Nat × Nat × Nat :=
  md5ChunksF bytes.length bytes st

/-- Lowercase hexadecimal digit. -/
def hexDigit (n : Nat) : Char := "0123456789abcdef".data.getD n '0'

/-- A byte as two lowercase hexadecimal digits. -/
def byteHex (b : Nat) : Str := [hexDigit (b / 16), hexDigit (b % 16)]

/-- The MD5 hexadecimal digest of a byte sequence. -/
def md5hex (msg : List Nat) : Str :=
  let st := md5Chunks (md5Pad msg) (1732584193, 4023233417, 2562383102, 271733878)
  ((natToLE 4 st.1 ++ natToLE 4 st.2.1 ++ natToLE 4 st.2.2.1 ++
    natToLE 4 st.2.2.2).map byteHex).flatten

/-! ## `URL_PATTERN` -/

/-- The class of body characters of `URL_PATTERN` before the dot. -/
def isUrlA (c : Char) : Bool :=
  isAlphaNumChar c || c = '-' || c = '@' || c = ':' || c = '%' || c = '.' ||
  c = '_' || c = '+' || c = '~' || c = '#' || c = '='

/-- The class of top-level-domain characters of `URL_PATTERN`. -/
def isUrlB (c : Char) : Bool := isAlphaNumChar c || c = '(' || c = ')'

/-- The class of trailing characters of `URL_PATTERN`. -/
def isUrlC (c : Char) : Bool :=
  isAlphaNumChar c || c = '-' || c = '(' || c = ')' || c = '@' || c = ':' ||
  c = '%' || c = '_' || c = '+' || c = '.' || c = '~' || c = '#' || c = '?' ||
  c = '&' || c = '/' || c = '='

/-- A word-boundary test between a previous character and the rest of the text. -/
def wordBoundary (pc : Char) (rest : Str) : Bool :=
  match rest.head? with
  | some c => isWordChar pc != isWordChar c
  | none => isWordChar pc

/-- Backtracking for the tail of `URL_PATTERN` after the dot: try taking
`m` characters of the top-level-domain class (greedy, descending), then a
word boundary, then the maximal run of trailing characters. -/
def urlBTry (t : Str) : Nat → Option Nat
  | 0 => none
  | m + 1 =>
    match (t.take (m + 1)).getLast? with
    | some pc =>
      if wordBoundary pc (t.drop (m + 1)) then
        some (m + 1 + ((t.drop (m + 1)).takeWhile isUrlC).length)
      else urlBTry t m
    | none => urlBTry t m

/-- Match the part of `URL_PATTERN` after the dot. -/
def urlBPart (t : Str) : Option Nat :=
  urlBTry t (min ((t.takeWhile isUrlB).length) 6)

/-- Backtracking for the body of `URL_PATTERN`: try `k` body characters
(greedy, descending) followed by a literal dot, then the tail. -/
def urlATry (t : Str) : Nat → Option Nat
  | 0 => none
  | k + 1 =>
    match (t.drop (k + 1)).head? with
    | some c =>
      if c = '.' then
        match urlBPart (t.drop (k + 2)) with
        | some m => some (k + 2 + m)
        | none => urlATry t k
      else urlATry t k
    | none => urlATry t k

/-- Match the body-dot-tail part of `URL_PATTERN`. -/
def urlATail (t : Str) : Option Nat :=
  urlATry t (min ((t.takeWhile isUrlA).length) 256)

/-- Match `URL_PATTERN` at the start of `s`; return the match length. -/
def matchURLAt (s : Str) : Option Nat :=
  if ("http".data).isPrefixOf s then
    let t := s.drop 4
    let sch : Option (Str × Nat) :=
      if ("s://".data).isPrefixOf t then some (t.drop 4, 8)
      else if ("://".data).isPrefixOf t then some (t.drop 3, 7)
      else none
    match sch with
    | some (u, base) =>
      if ("www.".data).isPrefixOf u then
        match urlATail (u.drop 4) with
        | some L => some (base + 4 + L)
        | none =>
          match urlATail u with
          | some L => some (base + L)
          | none => none
      else
        match urlATail u with
        | some L => some (base + L)
        | none => none
    | none => none
  else none

theorem matchURLAt_pos (s : Str) (L : Nat) (h : matchURLAt s = some L) : 0 < L := by
  unfold matchURLAt at h
  split at h
  · dsimp only at h
    split at h
    next u base heq =>
      have hb : 0 < base := by
        split at heq
        · simp at heq; omega
        · split at heq
          · simp at heq; omega
          · simp at heq
      split at h
      · split at h
        · simp at h; omega
        · split at h
          · simp at h; omega
          · simp at h
      · split at h
        · simp at h; omega
        · simp at h
    next => simp at h
  · simp at h

/-- Scan of `URL_PATTERN.sub` with the empty replacement: delete every
non-overlapping match, scanning left to right.  Structural on fuel; the
wrapper supplies the text length, which bounds the iteration count since
every iteration consumes at least one character. -/
def urlSubAllF : Nat → Str → Str
  | _, [] => []
  | 0, s => s
  | f + 1, c :: t =>
    match matchURLAt (c :: t) with
    | some L => urlSubAllF f ((c :: t).drop L)
    | none => c :: urlSubAllF f t

/-- Scan of `URL_PATTERN.sub` with the empty replacement. -/
def urlSubAll (s : Str) : Str := urlSubAllF s.length s

/-! ## The template-name and template-parameter patterns -/

/-- The alternatives of `TEMPLATE_NAMES`, in source order. -/
def templateNamesList : List Str :=
  (["book", "arXiv", "AV media", "AV media notes", "bioRxiv", "conference",
    "encyclopedia", "episode", "interview", "magazine", "mailing list", "journal",
    "map", "news", "newsgroup", "podcast", "press release", "report",
    "serial", "sign ", "speech", "techreport", "thesis", "web"] :
    List String).map String.data

/-- First alternative (in order) that is a literal prefix of `t`. -/
def findAltAt (alts : List Str) (t : Str) : Option Nat :=
  match alts with
  | [] => none
  | a :: rest => if a.isPrefixOf t then some a.length else findAltAt rest t

/-- Match `TEMPLATE_NAMES` (with alternative list `alts`) at the start of
`s`; return the match length. -/
def matchTemplateNameAtWith (alts : List Str) (s : Str) : Option Nat :=
  match s with
  | c :: t =>
    if (c = 'c' || c = 'C') && ("ite ".data).isPrefixOf t then
      match findAltAt alts (t.drop 4) with
      | some L => some (5 + L)
      | none => none
    else none
  | [] => none

/-- Match `TEMPLATE_NAMES` at the start of `s`; return the match length. -/
def matchTemplateNameAt (s : Str) : Option Nat :=
  matchTemplateNameAtWith templateNamesList s

theorem matchTemplateNameAt_pos (s : Str) (L : Nat)
    (h : matchTemplateNameAt s = some L) : 0 < L := by
  unfold matchTemplateNameAt matchTemplateNameAtWith at h
  split at h
  · split at h
    · split at h <;> simp_all <;> omega
    · simp_all
  · simp_all

/-- Scan of `TEMPLATE_NAMES.sub` (with alternative list `alts`) with the
empty replacement, structural on fuel as for `urlSubAllF`. -/
def templateNamesSubWithF (alts : List Str) : Nat → Str → Str
  | _, [] => []
  | 0, s => s
  | f + 1, c :: t =>
    match matchTemplateNameAtWith alts (c :: t) with
    | some L => templateNamesSubWithF alts f ((c :: t).drop L)
    | none => c :: templateNamesSubWithF alts f t

/-- Scan of `TEMPLATE_NAMES.sub` (with alternative list `alts`). -/
def templateNamesSubWith (alts : List Str) (s : Str) : Str :=
  templateNamesSubWithF alts s.length s

/-- Scan of `TEMPLATE_NAMES.sub` with the empty replacement. -/
def templateNamesSub (s : Str) : Str := templateNamesSubWith templateNamesList s

/-- The alternatives of `TEMPLATE_PARAMS`, in source order. -/
def templateParamsList : List Str :=
  ([
    "access-date", "agency", "archive-date", "archive-url", "arxiv", "asin",
    "asin-tld", "at", "author", "author-link", "author-link1", "author-link2",
    "author-link3", "author-link4", "author-link5", "author-mask", "author-mask1", "author-mask2",
    "author-mask3", "author-mask4", "author-mask5", "author2", "authors", "bibcode",
    "bibcode-access", "biorxiv", "book-title", "cartography", "chapter", "chapter-format",
    "chapter-url", "chapter-url-access", "citeseerx", "class", "conference", "conference-url",
    "credits", "date", "department", "display-authors", "display-editors", "display-translators",
    "docket", "doi", "doi-access", "doi-broken-date", "edition", "editor",
    "editor-first", "editor-first1", "editor-first2", "editor-first3", "editor-first4", "editor-first5",
    "editor-last", "editor-last1", "editor-last2", "editor-last3", "editor-last4", "editor-last5",
    "editor-link", "editor-link1", "editor-link2", "editor-link3", "editor-link4", "editor-link5",
    "editor-mask1", "editor-mask2", "editor-mask3", "editor-mask4", "editor-mask5", "editor1-first",
    "editor1-last", "editor1-link", "editor2-first", "editor2-last", "editor2-link", "editor3-first",
    "editor3-last", "editor3-link", "editor4-first", "editor4-last", "editor4-link", "editor5-first",
    "editor5-last", "editor5-link", "editors", "eissn", "encyclopedia", "episode",
    "episode-link", "eprint", "event", "first", "first1", "first2",
    "first3", "first4", "first5", "format", "hdl", "hdl-access",
    "host", "id", "inset", "institution", "interviewer", "isbn",
    "ismn", "issn", "issue", "jfm", "journal", "jstor",
    "jstor-access", "language", "last", "last1", "last2", "last3",
    "last4", "last5", "lccn", "location", "magazine", "mailing-list",
    "map", "map-url", "medium", "message-id", "minutes", "mode",
    "mr", "name-list-style", "network", "newsgroup", "no-pp", "number",
    "oclc", "ol", "ol-access", "orig-date", "osti", "osti-access",
    "others", "page", "pages", "people", "pmc", "pmc-embargo-date",
    "pmid", "postscript", "publication-date", "publication-place", "publisher", "quote",
    "quote-page", "quote-pages", "ref", "registration", "rfc", "s2cid",
    "s2cid-access", "sbn", "scale", "script-chapter", "script-quote", "script-title",
    "season", "section", "sections", "series", "series-link", "series-no",
    "ssrn", "station", "subject", "subject-link", "subject-link2", "subject-link3",
    "subject-link4", "subject2", "subject3", "subject4", "time", "title",
    "title-link", "trans-chapter", "trans-quote", "trans-title", "transcript", "transcript-url",
    "translator-first1", "translator-first2", "translator-first3", "translator-first4", "translator-first5", "translator-last1",
    "translator-last2", "translator-last3", "translator-last4", "translator-last5", "translator-link1", "translator-link2",
    "translator-link3", "translator-link4", "translator-link5", "translator-mask1", "translator-mask2", "translator-mask3",
    "translator-mask4", "translator-mask5", "type", "url", "url-access", "url-status",
    "via", "volume", "website", "work", "year", "zbl",
    "zbl"] : List String).map String.data

/-- First alternative (in order) that is a literal prefix of `t` and is
followed by optional whitespace and `=` (the pattern part after the group);
returns the total length consumed from `t`. -/
def findParamAltAt (alts : List Str) (t : Str) : Option Nat :=
  match alts with
  | [] => none
  | a :: rest =>
    if a.isPrefixOf t then
      let sp := ((t.drop a.length).takeWhile isSpaceChar).length
      match ((t.drop a.length).drop sp).head? with
      | some c => if c = '=' then some (a.length + sp + 1) else findParamAltAt rest t
      | none => findParamAltAt rest t
    else findParamAltAt rest t

/-- Match `TEMPLATE_PARAMS` (with alternative list `alts`) at the start
of `s`; return the match length. -/
def matchTemplateParamAtWith (alts : List Str) (s : Str) : Option Nat :=
  match s with
  | '|' :: t =>
    let sp := (t.takeWhile isSpaceChar).length
    match findParamAltAt alts (t.drop sp) with
    | some L => some (1 + sp + L)
    | none => none
  | _ => none

/-- Match `TEMPLATE_PARAMS` at the start of `s`; return the match length. -/
def matchTemplateParamAt (s : Str) : Option Nat :=
  matchTemplateParamAtWith templateParamsList s

theorem matchTemplateParamAt_pos (s : Str) (L : Nat)
    (h : matchTemplateParamAt s = some L) : 0 < L := by
  unfold matchTemplateParamAt matchTemplateParamAtWith at h
  split at h
  · dsimp only at h
    split at h
    · simp_all; omega
    · simp_all
  · simp_all

/-- Scan of `TEMPLATE_PARAMS.sub` (with alternative list `alts`) with the
empty replacement, structural on fuel as for `urlSubAllF`. -/
def templateParamsSubWithF (alts : List Str) : Nat → Str → Str
  | _, [] => []
  | 0, s => s
  | f + 1, c :: t =>
    match matchTemplateParamAtWith alts (c :: t) with
    | some L => templateParamsSubWithF alts f ((c :: t).drop L)
    | none => c :: templateParamsSubWithF alts f t

/-- Scan of `TEMPLATE_PARAMS.sub` (with alternative list `alts`). -/
def templateParamsSubWith (alts : List Str) (s : Str) : Str :=
  templateParamsSubWithF alts s.length s

/-- Scan of `TEMPLATE_PARAMS.sub` with the empty replacement. -/
def templateParamsSub (s : Str) : Str := templateParamsSubWith templateParamsList s

/-! ## `generate_short_name` -/

/-- `generate_short_name`: strip URLs, template names and template
parameters, keep the first 8 word characters, append the MD5 digest of
the original payload, truncate to 11 characters, and guard a leading
digit with an underscore. -/
def generate_short_name (payload : Str) : Str :=
  let s := templateParamsSub (templateNamesSub (urlSubAll payload))
  let words := s.filter isWordChar
  let name := words.take 8 ++ md5hex (strBytes payload)
  (match name.head? with
   | some c => if c.isDigit then ['_'] else []
   | none => []) ++ name.take 11

/-! ## `NAME_ATTR_PATTERN` -/

/-- Match `NAME_ATTR_PATTERN` anchored at the start of `s`: the literal
`name`, optional whitespace, `=`, optional whitespace, then either a run
of word characters or a double-quoted string (lazy, so up to the first
closing quote).  Returns the captured group, quotes included. -/
def matchNameAt (s : Str) : Option Str :=
  if ("name".data).isPrefixOf s then
    let t := (s.drop 4).dropWhile isSpaceChar
    match t with
    | '=' :: t2 =>
      let t3 := t2.dropWhile isSpaceChar
      match t3.head? with
      | some c =>
        if isWordChar c then some (t3.takeWhile isWordChar)
        else if c = '"' then
          let body := (t3.drop 1).takeWhile (fun d => d ≠ '"')
          if body.length < (t3.drop 1).length then some ('"' :: body ++ ['"'])
          else none
        else none
      | none => none
    | _ => none
  else none

/-- `NAME_ATTR_PATTERN.search`: the match at the leftmost position where
the anchored match succeeds. -/
def searchName : Str → Option Str
  | [] => none
  | c :: t =>
    match matchNameAt (c :: t) with
    | some v => some v
    | none => searchName t

/-- Python `str.strip` with the double-quote character: drop all leading
and trailing double quotes. -/
def stripQuote (s : Str) : Str :=
  ((s.dropWhile (fun c => c = '"')).reverse.dropWhile (fun c => c = '"')).reverse

/-! ## `REF_PATTERN` -/

/-- The literal closing tag. -/
def closer : Str := "</ref>".data

/-- The literal opening of a ref tag. -/
def openTag : Str := "<ref".data

/-- One matched ref occurrence: the attribute-string group and the
payload group of `REF_PATTERN`. -/
structure Ref where
  nameStr : Str
  pay : Str
deriving DecidableEq, Repr

/-- The whole matched text of an occurrence. -/
def Ref.text (r : Ref) : Str := openTag ++ r.nameStr ++ '>' :: r.pay ++ closer

/-- Split `s` at the first occurrence of `pat`: the part before the
occurrence and the part after it.  This realises the lazy `(?P<pay>.*?)`
followed by a literal. -/
def splitFirst (pat : Str) : Str → Option (Str × Str)
  | [] => none
  | c :: t =>
    if pat.isPrefixOf (c :: t) then some ([], (c :: t).drop pat.length)
    else
      match splitFirst pat t with
      | some p => some (c :: p.1, p.2)
      | none => none

/-- The word-boundary test of `REF_PATTERN` right after the literal
`<ref`: the next character must not be a word character. -/
def boundaryOK (t : Str) : Bool :=
  match t.head? with
  | some c => !isWordChar c
  | none => true

/-- Match `REF_PATTERN` anchored at the start of `s`: the literal `<ref`,
a word boundary, the attribute-string (all characters up to the first
`>`), a `>` not immediately preceded by `/`, and the lazy payload up to
the first literal `</ref>`.  Returns the occurrence and the rest of the
text after the match. -/
def matchRefHere (s : Str) : Option (Ref × Str) :=
  if openTag.isPrefixOf s then
    let t := s.drop 4
    if boundaryOK t then
      let attrs := t.takeWhile (fun c => c ≠ '>')
      match t.dropWhile (fun c => c ≠ '>') with
      | '>' :: t2 =>
        if attrs.getLast? = some '/' then none
        else
          match splitFirst closer t2 with
          | some p => some (⟨attrs, p.1⟩, p.2)
          | none => none
      | _ => none
    else none
  else none

/-- `REF_PATTERN.search`: try the anchored match at each position from
left to right; return the text before the match, the occurrence, and the
text after the match. -/
def searchRef : Str → Option (Str × Ref × Str)
  | [] => none
  | c :: t =>
    match matchRefHere (c :: t) with
    | some p => some ([], p.1, p.2)
    | none =>
      match searchRef t with
      | some q => some (c :: q.1, q.2.1, q.2.2)
      | none => none

theorem splitFirst_eq_append (pat s b a : Str) (h : splitFirst pat s = some (b, a)) :
    s = b ++ pat ++ a := by
  induction s generalizing b with
  | nil => simp [splitFirst] at h
  | cons c t ih =>
    rw [splitFirst] at h
    split at h
    · next hp =>
      obtain ⟨u, hu⟩ := List.isPrefixOf_iff_prefix.mp hp
      simp only [Option.some.injEq, Prod.mk.injEq] at h
      obtain ⟨hb, ha⟩ := h
      have hdrop : (c :: t).drop pat.length = u := by
        rw [← hu]; exact List.drop_left pat u
      subst hb
      rw [← ha, hdrop, List.nil_append, hu]
    · split at h
      · next p heq =>
        simp only [Option.some.injEq, Prod.mk.injEq] at h
        obtain ⟨hb, ha⟩ := h
        have := ih p.1 (by rw [heq, ← ha])
        rw [← hb]
        simp [this]
      · simp at h

theorem matchRefHere_eq_append (s : Str) (r : Ref) (rest : Str)
    (h : matchRefHere s = some (r, rest)) : s = r.text ++ rest := by
  unfold matchRefHere at h
  split at h
  · next hp =>
    dsimp only at h
    split at h
    · split at h
      · next t2 heq =>
        split at h
        · simp at h
        · split at h
          · next p hsp =>
            simp only [Option.some.injEq, Prod.mk.injEq] at h
            obtain ⟨hr, hrest⟩ := h
            obtain ⟨u, hu⟩ := List.isPrefixOf_iff_prefix.mp hp
            have hu4 : s.drop 4 = u := by
              have h4 : (4 : Nat) = openTag.length := by decide
              rw [← hu, h4, List.drop_left]
            have htw : s.drop 4 =
                (s.drop 4).takeWhile (fun c => decide (c ≠ '>')) ++ ('>' :: t2) := by
              conv_lhs => rw [← List.takeWhile_append_dropWhile
                (fun c => decide (c ≠ '>')) (s.drop 4)]
              rw [heq]
            have hsplit := splitFirst_eq_append closer t2 p.1 p.2 (by rw [hsp])
            have hs : s = openTag ++
                ((s.drop 4).takeWhile (fun c => decide (c ≠ '>')) ++
                 ('>' :: (p.1 ++ closer ++ p.2))) := by
              conv_lhs => rw [← hu, ← hu4, htw, hsplit]
            rw [hs, ← hr, ← hrest]
            simp [Ref.text]
          · simp at h
      · simp at h
    · simp at h
  · simp at h

theorem matchRefHere_length (s : Str) (r : Ref) (rest : Str)
    (h : matchRefHere s = some (r, rest)) : rest.length + 11 ≤ s.length := by
  have := matchRefHere_eq_append s r rest h
  rw [this]
  simp [Ref.text, openTag, closer]
  omega

theorem searchRef_eq_append (s g : Str) (r : Ref) (rest : Str)
    (h : searchRef s = some (g, r, rest)) : s = g ++ r.text ++ rest := by
  induction s generalizing g with
  | nil => simp [searchRef] at h
  | cons c t ih =>
    rw [searchRef] at h
    split at h
    · next p heq =>
      simp only [Option.some.injEq, Prod.mk.injEq] at h
      obtain ⟨hg, hr, hrest⟩ := h
      have := matchRefHere_eq_append (c :: t) p.1 p.2 (by rw [heq])
      rw [← hg, ← hr, ← hrest]
      simpa using this
    · split at h
      · next q heq =>
        simp only [Option.some.injEq, Prod.mk.injEq] at h
        obtain ⟨hg, hr, hrest⟩ := h
        have := ih q.1 (by rw [heq, ← hr, ← hrest])
        rw [← hg]
        simp [this]
      · simp at h

theorem searchRef_rest_length (s g : Str) (r : Ref) (rest : Str)
    (h : searchRef s = some (g, r, rest)) : rest.length + 11 ≤ s.length := by
  have := searchRef_eq_append s g r rest h
  rw [this]
  simp [Ref.text, openTag, closer]
  omega

/-- All matches of `REF_PATTERN` in document order, each paired with the
text gap before it, plus the trailing text after the last match.  This is
the scan both passes of the program perform.  Structural on fuel; the
wrapper supplies the text length, which bounds the iteration count since
every match consumes at least eleven characters. -/
def scanRefsF : Nat → Str → List (Str × Ref) × Str
  | 0, s => ([], s)
  | f + 1, s =>
    match searchRef s with
    | none => ([], s)
    | some q =>
      let p := scanRefsF f q.2.2
      ((q.1, q.2.1) :: p.1, p.2)

/-- All matches of `REF_PATTERN` in document order, with gaps and the
trailing text. -/
def scanRefs (s : Str) : List (Str × Ref) × Str := scanRefsF s.length s

/-- The matched occurrences of an article, in document order. -/
def refsOf (s : Str) : List Ref := (scanRefs s).1.map Prod.snd

/-- The payloads of all matched occurrences, in document order. -/
def payloadsOf (s : Str) : List Str := (refsOf s).map Ref.pay

/-! ## `CitationDatabase` -/

/-- The payload-to-short-name mapping.  Python's insertion-ordered `dict`
is an association list without duplicate keys. -/
structure CitationDatabase where
  shortnames : List (Str × Str)
deriving DecidableEq, Repr

/-- The value view of the mapping. -/
def CitationDatabase.values (db : CitationDatabase) : List Str :=
  db.shortnames.map Prod.snd

/-- `CitationDatabase.has`: exact-match payload membership. -/
def CitationDatabase.has (db : CitationDatabase) (payload : Str) : Bool :=
  db.shortnames.any (fun e => e.1 = payload)

/-- `CitationDatabase.get_shortname`: the assigned short-name, or the
empty text when the payload is unknown. -/
def CitationDatabase.get_shortname (db : CitationDatabase) (payload : Str) : Str :=
  match db.shortnames.find? (fun e => e.1 = payload) with
  | some e => e.2
  | none => []

/-- `CitationDatabase.add`: the `assert` makes the operation fallible —
`none` models the `AssertionError` raised when the short-name is already
present among the values.  Otherwise the dict entry is written (an
existing key keeps its position, a new key is appended). -/
def CitationDatabase.add (db : CitationDatabase) (payload shortname : Str) :
    Option CitationDatabase :=
  if shortname ∈ db.values then none
  else if db.has payload then
    some ⟨db.shortnames.map (fun e => if e.1 = payload then (payload, shortname) else e)⟩
  else some ⟨db.shortnames ++ [(payload, shortname)]⟩

/-! ## The duplicate scanner and the rewriter -/

/-- `has_name_attribute`: the name pattern matches somewhere in the
attribute-string. -/
def has_name_attribute (r : Ref) : Bool := (searchName r.nameStr).isSome

/-- The short-name the scanner chooses for a first occurrence: the
captured name-attribute value with surrounding quotes stripped when
present, else the generated short-name of the payload. -/
def parsedShortname (r : Ref) : Str :=
  match searchName r.nameStr with
  | some v => stripQuote v
  | none => generate_short_name r.pay

/-- Python `set.add` on the insertion-ordered list model. -/
def setAdd (l : List Str) (x : Str) : List Str :=
  if x ∈ l then l else l ++ [x]

/-- The loop of `get_duplicated_refs`: scan the article, record repeated
payloads, register first occurrences; `none` models the `AssertionError`
escaping from `CitationDatabase.add`. -/
def get_duplicated_refs_goF (fuel : Nat) (s : Str) (db : CitationDatabase)
    (result : List Str) : Option (CitationDatabase × List Str) :=
  match fuel with
  | 0 => some (db, result)
  | f + 1 =>
    match searchRef s with
    | none => some (db, result)
    | some q =>
      if db.has q.2.1.pay then
        get_duplicated_refs_goF f q.2.2 db (setAdd result q.2.1.pay)
      else
        match db.add q.2.1.pay (parsedShortname q.2.1) with
        | some db2 => get_duplicated_refs_goF f q.2.2 db2 result
        | none => none

/-- The loop of `get_duplicated_refs`, entered with the text length as
fuel. -/
def get_duplicated_refs_go (s : Str) (db : CitationDatabase)
    (result : List Str) : Option (CitationDatabase × List Str) :=
  get_duplicated_refs_goF s.length s db result

/-- `get_duplicated_refs`: returns the duplicated payloads and the
populated database. -/
def get_duplicated_refs (article : Str) (db : CitationDatabase) :
    Option (CitationDatabase × List Str) :=
  get_duplicated_refs_go article db []

/-- The emitted self-closing back-reference text. -/
def backrefText (n : Str) : Str := "<ref name=\"".data ++ n ++ "\" />".data

/-- The emitted renamed full tag text. -/
def namedTagText (n p : Str) : Str :=
  "<ref name=\"".data ++ n ++ "\">".data ++ p ++ closer

/-- The rewriting loop of `merge`: copy gaps verbatim; emit unique
occurrences unchanged; replace repeated duplicate occurrences by
back-references, counting each; name the first emission of a duplicate
payload unless it already carries a name attribute. -/
def merge_goF (fuel : Nat) (s : Str) (db : CitationDatabase)
    (dups : List Str) (seen : List Str) : Str × Nat :=
  match fuel with
  | 0 => (s, 0)
  | f + 1 =>
    match searchRef s with
    | none => (s, 0)
    | some q =>
      if q.2.1.pay ∉ dups then
        let p := merge_goF f q.2.2 db dups seen
        (q.1 ++ q.2.1.text ++ p.1, p.2)
      else if q.2.1.pay ∈ seen then
        let p := merge_goF f q.2.2 db dups seen
        (q.1 ++ backrefText (db.get_shortname q.2.1.pay) ++ p.1, p.2 + 1)
      else
        let emitted :=
          if !has_name_attribute q.2.1 then
            namedTagText (db.get_shortname q.2.1.pay) q.2.1.pay
          else q.2.1.text
        let p := merge_goF f q.2.2 db dups (seen ++ [q.2.1.pay])
        (q.1 ++ emitted ++ p.1, p.2)

/-- The rewriting loop of `merge`, entered with the text length as fuel. -/
def merge_go (s : Str) (db : CitationDatabase) (dups : List Str)
    (seen : List Str) : Str × Nat :=
  merge_goF s.length s db dups seen

/-- `merge`: run the duplicate scanner, then the rewriter.  Returns the
rewritten article, the merge count and the list of duplicated payloads;
`none` models the `AssertionError` abort on a short-name collision. -/
def merge (article : Str) : Option (Str × Nat × List Str) :=
  match get_duplicated_refs article ⟨[]⟩ with
  | none => none
  | some r =>
    let p := merge_go article r.1 r.2 []
    some (p.1, p.2, r.2)

/-! ## Observers following the specification's wording

These definitions do not translate program code; they express, over the
embedding, the derived notions the testable properties of the
specification quantify over (self-closing tags, carried short-names,
back-reference resolution). -/

/-- Following the specification's wording: a self-closing ref tag is a
`<ref` with a word boundary, an attribute-string free of `>`, and a `>`
immediately preceded by `/`.  Returns the attribute-string and the tag
length. -/
def matchSelfClosingAt (s : Str) : Option (Str × Nat) :=
  if openTag.isPrefixOf s then
    let t := s.drop 4
    if boundaryOK t then
      let attrs := t.takeWhile (fun c => c ≠ '>')
      match t.dropWhile (fun c => c ≠ '>') with
      | '>' :: _ =>
        if attrs.getLast? = some '/' then some (attrs, 5 + attrs.length) else none
      | _ => none
    else none
  else none

theorem matchSelfClosingAt_pos (s : Str) (a : Str) (L : Nat)
    (h : matchSelfClosingAt s = some (a, L)) : 0 < L := by
  unfold matchSelfClosingAt at h
  split at h
  · dsimp only at h
    split at h
    · split at h
      · split at h
        · simp only [Option.some.injEq, Prod.mk.injEq] at h
          omega
        · simp at h
      · simp at h
    · simp at h
  · simp at h

/-- Following the specification's wording: the attribute-strings of all
self-closing tags, scanning left to right; structural on fuel as for
`urlSubAllF`. -/
def scanSelfClosingF : Nat → Str → List Str
  | _, [] => []
  | 0, _ => []
  | f + 1, c :: t =>
    match matchSelfClosingAt (c :: t) with
    | some p => p.1 :: scanSelfClosingF f ((c :: t).drop p.2)
    | none => scanSelfClosingF f t

/-- The attribute-strings of all self-closing tags, left to right. -/
def scanSelfClosing (s : Str) : List Str := scanSelfClosingF s.length s

/-- Following the specification's wording: the short-name carried by an
occurrence, extracted by the Name Extractor with quotes stripped. -/
def carriedName (r : Ref) : Option Str := (searchName r.nameStr).map stripQuote

/-- Following the specification's wording: the short-names referenced by
the self-closing tags of a text. -/
def selfClosingNames (s : Str) : List Str :=
  (scanSelfClosing s).filterMap (fun attrs => (searchName attrs).map stripQuote)

/-- Following the specification's wording: resolve a short-name to the
payload of the full matched tag of `out` that carries it. -/
def resolvePayload (out : Str) (n : Str) : Option Str :=
  ((refsOf out).find? (fun r => carriedName r == some n)).map Ref.pay

/-- Following the specification's wording of the content-preservation
property: the payloads of the full matched tags of a text together with
the payloads obtained by resolving every self-closing back-reference. -/
def resolvedMultiset (out : Str) : Multiset Str :=
  ((payloadsOf out ++ (selfClosingNames out).filterMap (resolvePayload out) : List Str) :
    Multiset Str)

/-- Occurrence count of a pattern in a text (at every position). -/
def countOcc (pat : Str) : Str → Nat
  | [] => 0
  | c :: t => (if pat.isPrefixOf (c :: t) then 1 else 0) + countOcc pat t

/-! ## Fuel irrelevance and natural unfolding equations for the loops -/

theorem searchRef_nil : searchRef [] = none := rfl

theorem scanRefsF_fuel : ∀ f1 f2 s, s.length ≤ f1 → s.length ≤ f2 →
    scanRefsF f1 s = scanRefsF f2 s := by
  intro f1
  induction f1 with
  | zero =>
    intro f2 s h1 h2
    have hs : s = [] := List.length_eq_zero.mp (Nat.le_zero.mp h1)
    subst hs
    cases f2 with
    | zero => rfl
    | succ g => simp [scanRefsF, searchRef_nil]
  | succ f ih =>
    intro f2 s h1 h2
    cases f2 with
    | zero =>
      have hs : s = [] := List.length_eq_zero.mp (Nat.le_zero.mp h2)
      subst hs
      simp [scanRefsF, searchRef_nil]
    | succ g =>
      rw [scanRefsF, scanRefsF]
      cases hsr : searchRef s with
      | none => rfl
      | some q =>
        have hrest := searchRef_rest_length s q.1 q.2.1 q.2.2 (by rw [hsr])
        have hq : scanRefsF f q.2.2 = scanRefsF g q.2.2 :=
          ih g q.2.2 (by omega) (by omega)
        simp [hq]

theorem scanRefs_eq_none (s : Str) (h : searchRef s = none) :
    scanRefs s = ([], s) := by
  unfold scanRefs
  cases hl : s.length with
  | zero => rfl
  | succ m => rw [scanRefsF, h]

theorem scanRefs_eq_some (s : Str) (q : Str × Ref × Str)
    (h : searchRef s = some q) :
    scanRefs s = ((q.1, q.2.1) :: (scanRefs q.2.2).1, (scanRefs q.2.2).2) := by
  unfold scanRefs
  cases hl : s.length with
  | zero =>
    have hs : s = [] := List.length_eq_zero.mp hl
    subst hs
    rw [searchRef_nil] at h
    exact absurd h (by simp)
  | succ m =>
    rw [scanRefsF, h]
    have hrest := searchRef_rest_length s q.1 q.2.1 q.2.2 (by rw [h])
    have : scanRefsF m q.2.2 = scanRefsF q.2.2.length q.2.2 :=
      scanRefsF_fuel m q.2.2.length q.2.2 (by omega) (by omega)
    simp [this]

theorem get_duplicated_refs_goF_fuel : ∀ f1 f2 s db result, s.length ≤ f1 →
    s.length ≤ f2 →
    get_duplicated_refs_goF f1 s db result = get_duplicated_refs_goF f2 s db result := by
  intro f1
  induction f1 with
  | zero =>
    intro f2 s db result h1 h2
    have hs : s = [] := List.length_eq_zero.mp (Nat.le_zero.mp h1)
    subst hs
    cases f2 with
    | zero => rfl
    | succ g => simp [get_duplicated_refs_goF, searchRef_nil]
  | succ f ih =>
    intro f2 s db result h1 h2
    cases f2 with
    | zero =>
      have hs : s = [] := List.length_eq_zero.mp (Nat.le_zero.mp h2)
      subst hs
      simp [get_duplicated_refs_goF, searchRef_nil]
    | succ g =>
      rw [get_duplicated_refs_goF, get_duplicated_refs_goF]
      cases hsr : searchRef s with
      | none => rfl
      | some q =>
        have hrest := searchRef_rest_length s q.1 q.2.1 q.2.2 (by rw [hsr])
        have h1q : q.2.2.length ≤ f := by omega
        have h2q : q.2.2.length ≤ g := by omega
        dsimp only
        split
        · exact ih g q.2.2 db (setAdd result q.2.1.pay) h1q h2q
        · cases db.add q.2.1.pay (parsedShortname q.2.1) with
          | none => rfl
          | some db2 => exact ih g q.2.2 db2 result h1q h2q

theorem get_duplicated_refs_go_eq_none (s : Str) (db : CitationDatabase)
    (result : List Str) (h : searchRef s = none) :
    get_duplicated_refs_go s db result = some (db, result) := by
  unfold get_duplicated_refs_go
  cases hl : s.length with
  | zero => rfl
  | succ m => rw [get_duplicated_refs_goF, h]

theorem get_duplicated_refs_go_eq_some (s : Str) (db : CitationDatabase)
    (result : List Str) (q : Str × Ref × Str) (h : searchRef s = some q) :
    get_duplicated_refs_go s db result =
      if db.has q.2.1.pay then
        get_duplicated_refs_go q.2.2 db (setAdd result q.2.1.pay)
      else
        match db.add q.2.1.pay (parsedShortname q.2.1) with
        | some db2 => get_duplicated_refs_go q.2.2 db2 result
        | none => none := by
  unfold get_duplicated_refs_go
  cases hl : s.length with
  | zero =>
    have hs : s = [] := List.length_eq_zero.mp hl
    subst hs
    rw [searchRef_nil] at h
    exact absurd h (by simp)
  | succ m =>
    rw [get_duplicated_refs_goF, h]
    have hrest := searchRef_rest_length s q.1 q.2.1 q.2.2 (by rw [h])
    dsimp only
    split
    · exact get_duplicated_refs_goF_fuel m q.2.2.length q.2.2 db
        (setAdd result q.2.1.pay) (by omega) (by omega)
    · cases db.add q.2.1.pay (parsedShortname q.2.1) with
      | none => rfl
      | some db2 =>
        exact get_duplicated_refs_goF_fuel m q.2.2.length q.2.2 db2 result
          (by omega) (by omega)

theorem merge_goF_fuel : ∀ f1 f2 s db dups seen, s.length ≤ f1 →
    s.length ≤ f2 →
    merge_goF f1 s db dups seen = merge_goF f2 s db dups seen := by
  intro f1
  induction f1 with
  | zero =>
    intro f2 s db dups seen h1 h2
    have hs : s = [] := List.length_eq_zero.mp (Nat.le_zero.mp h1)
    subst hs
    cases f2 with
    | zero => rfl
    | succ g => simp [merge_goF, searchRef_nil]
  | succ f ih =>
    intro f2 s db dups seen h1 h2
    cases f2 with
    | zero =>
      have hs : s = [] := List.length_eq_zero.mp (Nat.le_zero.mp h2)
      subst hs
      simp [merge_goF, searchRef_nil]
    | succ g =>
      rw [merge_goF, merge_goF]
      cases hsr : searchRef s with
      | none => rfl
      | some q =>
        have hrest := searchRef_rest_length s q.1 q.2.1 q.2.2 (by rw [hsr])
        have h1q : q.2.2.length ≤ f := by omega
        have h2q : q.2.2.length ≤ g := by omega
        dsimp only
        split
        · rw [ih g q.2.2 db dups seen h1q h2q]
        · split
          · rw [ih g q.2.2 db dups seen h1q h2q]
          · rw [ih g q.2.2 db dups (seen ++ [q.2.1.pay]) h1q h2q]

theorem merge_go_eq_none (s : Str) (db : CitationDatabase) (dups seen : List Str)
    (h : searchRef s = none) : merge_go s db dups seen = (s, 0) := by
  unfold merge_go
  cases hl : s.length with
  | zero => rfl
  | succ m => rw [merge_goF, h]

theorem merge_go_eq_some (s : Str) (db : CitationDatabase) (dups seen : List Str)
    (q : Str × Ref × Str) (h : searchRef s = some q) :
    merge_go s db dups seen =
      if q.2.1.pay ∉ dups then
        ((q.1 ++ q.2.1.text ++ (merge_go q.2.2 db dups seen).1,
          (merge_go q.2.2 db dups seen).2) : Str × Nat)
      else if q.2.1.pay ∈ seen then
        (q.1 ++ backrefText (db.get_shortname q.2.1.pay) ++
           (merge_go q.2.2 db dups seen).1,
         (merge_go q.2.2 db dups seen).2 + 1)
      else
        (q.1 ++ (if !has_name_attribute q.2.1 then
            namedTagText (db.get_shortname q.2.1.pay) q.2.1.pay
          else q.2.1.text) ++ (merge_go q.2.2 db dups (seen ++ [q.2.1.pay])).1,
         (merge_go q.2.2 db dups (seen ++ [q.2.1.pay])).2) := by
  unfold merge_go
  cases hl : s.length with
  | zero =>
    have hs : s = [] := List.length_eq_zero.mp hl
    subst hs
    rw [searchRef_nil] at h
    exact absurd h (by simp)
  | succ m =>
    rw [merge_goF, h]
    have hrest := searchRef_rest_length s q.1 q.2.1 q.2.2 (by rw [h])
    have hf : ∀ db2 seen2, merge_goF m q.2.2 db2 dups seen2 =
        merge_goF q.2.2.length q.2.2 db2 dups seen2 := fun db2 seen2 =>
      merge_goF_fuel m q.2.2.length q.2.2 db2 dups seen2 (by omega) (by omega)
    dsimp only
    split
    · rw [hf]
    · split
      · rw [hf]
      · rw [hf]

/-! ## Claim theorems: concrete behaviour -/

/-- C4: on the input `<ref>a</ref><ref>a</ref>`, `merge` returns the text
`<ref name="X">a</ref><ref name="X" />` where `X` is the deterministic
generated short-name for the payload `a`, a merge count of 1, and the
duplicated-payloads list `["a"]`. -/
theorem C4_adjacent_duplicate_pair :
    merge ("<ref>a</ref><ref>a</ref>".data) =
      some ("<ref name=\"".data ++ generate_short_name "a".data ++
            "\">a</ref><ref name=\"".data ++ generate_short_name "a".data ++
            "\" />".data, 1, ["a".data]) := by decide

/-- C10: the name-attribute pattern matches `name=` as a bare substring,
so an attribute-string containing only a longer key ending in `name`
(such as `surname="X"` or `groupname=G`) is treated as carrying an
explicit name whose value is the captured one, and the Rewriter keeps
the first emission of such a duplicate occurrence unchanged. -/
theorem C10_name_matches_as_substring :
    has_name_attribute ⟨" surname=\"X\"".data, "p".data⟩ = true ∧
    parsedShortname ⟨" surname=\"X\"".data, "p".data⟩ = "X".data ∧
    has_name_attribute ⟨" groupname=G".data, "q".data⟩ = true ∧
    parsedShortname ⟨" groupname=G".data, "q".data⟩ = "G".data ∧
    merge ("<ref surname=\"X\">p</ref><ref>p</ref>".data) =
      some ("<ref surname=\"X\">p</ref><ref name=\"X\" />".data, 1, ["p".data]) ∧
    merge ("<ref groupname=G>q</ref><ref>q</ref>".data) =
      some ("<ref groupname=G>q</ref><ref name=\"G\" />".data, 1, ["q".data]) := by
  decide

/-- C3, counterexample: an article whose two matched occurrences have
pairwise distinct payloads on which `merge` does not return at all — the
two occurrences carry the same explicit name `N`, so the registry
`assert` aborts the merge.  The claim that `merge` returns the article
unchanged with count 0 fails on this input. -/
theorem C3_counterexample :
    (payloadsOf ("<ref name=N>x</ref><ref name=N>y</ref>".data)).Nodup ∧
    merge ("<ref name=N>x</ref><ref name=N>y</ref>".data) = none := by decide

/-- C7, counterexample: `add` also fails when the short-name is already
assigned to the *same* payload, not only to a different one: in a
registry whose only entry maps payload `a` to short-name `n`, no entry
assigns `n` to a payload other than `a`, yet `add a n` fails. -/
theorem C7_counterexample :
    (∀ e ∈ (⟨[("a".data, "n".data)]⟩ : CitationDatabase).shortnames,
        e.2 = "n".data → e.1 = "a".data) ∧
    CitationDatabase.add ⟨[("a".data, "n".data)]⟩ "a".data "n".data = none := by
  decide

/-- C2, counterexample: an article that already contains a self-closing
back-reference.  `merge` leaves it unchanged (its single matched payload
is unique), but resolving every self-closing back-reference of the
output adds a second copy of the payload `x`, so the resolved multiset
differs from the multiset of matched payloads of the original. -/
theorem C2_counterexample :
    merge ("<ref name=\"n\">x</ref><ref name=\"n\" />".data) =
      some ("<ref name=\"n\">x</ref><ref name=\"n\" />".data, 0, []) ∧
    resolvedMultiset ("<ref name=\"n\">x</ref><ref name=\"n\" />".data) ≠
      ((payloadsOf ("<ref name=\"n\">x</ref><ref name=\"n\" />".data) : List Str) :
        Multiset Str) := by decide

/-- C6, counterexample: a self-closing tag sitting inside a duplicated
payload is *not* copied into the output unaltered — the second duplicate
occurrence is replaced by a back-reference, and the self-closing tag it
contained disappears: the input holds two occurrences of
`<ref name="n" />`, the output only one. -/
theorem C6_counterexample :
    merge ("<ref>x<ref name=\"n\" /></ref><ref>x<ref name=\"n\" /></ref>".data) =
      some (("<ref name=\"xrefname37c\">x<ref name=\"n\" /></ref>" ++
             "<ref name=\"xrefname37c\" />").data, 1, ["x<ref name=\"n\" />".data]) ∧
    countOcc ("<ref name=\"n\" />".data)
      ("<ref>x<ref name=\"n\" /></ref><ref>x<ref name=\"n\" /></ref>".data) = 2 ∧
    countOcc ("<ref name=\"n\" />".data)
      (("<ref name=\"xrefname37c\">x<ref name=\"n\" /></ref>" ++
        "<ref name=\"xrefname37c\" />").data) = 1 := by decide

/-- C5: on the input `<ref name="N1">x</ref><ref name="N1">x</ref>` the
first occurrence is left unchanged, the second becomes the back-reference
`<ref name="N1" />`, and the merge count is 1; and in general, whenever
the rewriting loop meets a first emission of a duplicate payload that
carries a name attribute, it emits the occurrence unchanged. -/
theorem C5_named_first_emission_kept :
    merge ("<ref name=\"N1\">x</ref><ref name=\"N1\">x</ref>".data) =
      some ("<ref name=\"N1\">x</ref><ref name=\"N1\" />".data, 1, ["x".data]) ∧
    ∀ (s : Str) (db : CitationDatabase) (dups seen : List Str)
      (q : Str × Ref × Str), searchRef s = some q →
      q.2.1.pay ∈ dups → q.2.1.pay ∉ seen → has_name_attribute q.2.1 = true →
      merge_go s db dups seen =
        (q.1 ++ q.2.1.text ++ (merge_go q.2.2 db dups (seen ++ [q.2.1.pay])).1,
         (merge_go q.2.2 db dups (seen ++ [q.2.1.pay])).2) := by
  refine ⟨by decide, ?_⟩
  intro s db dups seen q hs hdup hseen hname
  rw [merge_go_eq_some s db dups seen q hs]
  simp [hdup, hseen, hname]

/-- Closed instance of the universally quantified part of the C5 theorem,
at the article `<ref name="N1">x</ref>tail` with payload `x` duplicated
and not yet seen. -/
theorem C5_witness :
    searchRef ("<ref name=\"N1\">x</ref>tail".data) =
      some ([], ⟨" name=\"N1\"".data, "x".data⟩, "tail".data) ∧
    merge_go ("<ref name=\"N1\">x</ref>tail".data) ⟨[("x".data, "N1".data)]⟩
        ["x".data] [] =
      (([] : Str) ++ (Ref.text ⟨" name=\"N1\"".data, "x".data⟩) ++
        (merge_go "tail".data ⟨[("x".data, "N1".data)]⟩ ["x".data]
          ([] ++ ["x".data])).1,
       (merge_go "tail".data ⟨[("x".data, "N1".data)]⟩ ["x".data]
          ([] ++ ["x".data])).2) :=
  ⟨by decide,
   C5_named_first_emission_kept.2 ("<ref name=\"N1\">x</ref>tail".data)
     ⟨[("x".data, "N1".data)]⟩ ["x".data] []
     ([], ⟨" name=\"N1\"".data, "x".data⟩, "tail".data)
     (by decide) (by decide) (by decide) (by decide)⟩

/-! ## Bridge lemmas: the loops as folds over the occurrence list -/

theorem refsOf_eq_none (s : Str) (h : searchRef s = none) : refsOf s = [] := by
  unfold refsOf
  rw [scanRefs_eq_none s h]
  rfl

theorem refsOf_eq_some (s : Str) (q : Str × Ref × Str) (h : searchRef s = some q) :
    refsOf s = q.2.1 :: refsOf q.2.2 := by
  unfold refsOf
  rw [scanRefs_eq_some s q h]
  rfl

/-- The duplicate-scanner loop as a fold over the occurrence list. -/
def scanRefsList : List Ref → CitationDatabase → List Str →
    Option (CitationDatabase × List Str)
  | [], db, res => some (db, res)
  | r :: rs, db, res =>
    if db.has r.pay then scanRefsList rs db (setAdd res r.pay)
    else
      match db.add r.pay (parsedShortname r) with
      | some db2 => scanRefsList rs db2 res
      | none => none

theorem get_duplicated_refs_go_list_aux (f : Nat) : ∀ (s : Str) db res,
    s.length ≤ f →
    get_duplicated_refs_go s db res = scanRefsList (refsOf s) db res := by
  induction f with
  | zero =>
    intro s db res h
    have hs : s = [] := List.length_eq_zero.mp (Nat.le_zero.mp h)
    subst hs
    rw [get_duplicated_refs_go_eq_none [] db res searchRef_nil,
        refsOf_eq_none [] searchRef_nil]
    rfl
  | succ f ih =>
    intro s db res h
    cases hsr : searchRef s with
    | none =>
      rw [get_duplicated_refs_go_eq_none s db res hsr, refsOf_eq_none s hsr]
      rfl
    | some q =>
      rw [get_duplicated_refs_go_eq_some s db res q hsr, refsOf_eq_some s q hsr]
      have hlen : q.2.2.length ≤ f := by
        have := searchRef_rest_length s q.1 q.2.1 q.2.2 (by rw [hsr])
        omega
      rw [scanRefsList]
      split
      · exact ih q.2.2 db (setAdd res q.2.1.pay) hlen
      · cases db.add q.2.1.pay (parsedShortname q.2.1) with
        | none => rfl
        | some db2 => exact ih q.2.2 db2 res hlen

theorem get_duplicated_refs_go_list (s : Str) (db : CitationDatabase)
    (res : List Str) :
    get_duplicated_refs_go s db res = scanRefsList (refsOf s) db res :=
  get_duplicated_refs_go_list_aux s.length s db res (Nat.le_refl s.length)

/-- What the rewriting loop emits for one occurrence, given the duplicate
set, the registry and the payloads already emitted. -/
def rewriteEmit (db : CitationDatabase) (dups seen : List Str) (r : Ref) : Str :=
  if r.pay ∉ dups then r.text
  else if r.pay ∈ seen then backrefText (db.get_shortname r.pay)
  else if !has_name_attribute r then namedTagText (db.get_shortname r.pay) r.pay
  else r.text

/-- The rewriting loop as a fold over the scan structure. -/
def rewriteScan (db : CitationDatabase) (dups : List Str) :
    List (Str × Ref) → Str → List Str → Str × Nat
  | [], last, _ => (last, 0)
  | (g, r) :: prs, last, seen =>
    if r.pay ∉ dups then
      let p := rewriteScan db dups prs last seen
      (g ++ r.text ++ p.1, p.2)
    else if r.pay ∈ seen then
      let p := rewriteScan db dups prs last seen
      (g ++ backrefText (db.get_shortname r.pay) ++ p.1, p.2 + 1)
    else
      let emitted :=
        if !has_name_attribute r then
          namedTagText (db.get_shortname r.pay) r.pay
        else r.text
      let p := rewriteScan db dups prs last (seen ++ [r.pay])
      (g ++ emitted ++ p.1, p.2)

theorem merge_go_scan_aux (f : Nat) : ∀ (s : Str) db dups seen, s.length ≤ f →
    merge_go s db dups seen =
      rewriteScan db dups (scanRefs s).1 (scanRefs s).2 seen := by
  induction f with
  | zero =>
    intro s db dups seen h
    have hs : s = [] := List.length_eq_zero.mp (Nat.le_zero.mp h)
    subst hs
    rw [merge_go_eq_none [] db dups seen searchRef_nil,
        scanRefs_eq_none [] searchRef_nil]
    rfl
  | succ f ih =>
    intro s db dups seen h
    cases hsr : searchRef s with
    | none =>
      rw [merge_go_eq_none s db dups seen hsr, scanRefs_eq_none s hsr]
      rfl
    | some q =>
      rw [merge_go_eq_some s db dups seen q hsr, scanRefs_eq_some s q hsr]
      have hlen : q.2.2.length ≤ f := by
        have := searchRef_rest_length s q.1 q.2.1 q.2.2 (by rw [hsr])
        omega
      rw [rewriteScan]
      dsimp only
      rw [ih q.2.2 db dups seen hlen, ih q.2.2 db dups (seen ++ [q.2.1.pay]) hlen]

theorem merge_go_scan (s : Str) (db : CitationDatabase) (dups seen : List Str) :
    merge_go s db dups seen =
      rewriteScan db dups (scanRefs s).1 (scanRefs s).2 seen :=
  merge_go_scan_aux s.length s db dups seen (Nat.le_refl s.length)

theorem scanRefs_join_aux (f : Nat) : ∀ (s : Str), s.length ≤ f →
    ((scanRefs s).1.map (fun gr => gr.1 ++ gr.2.text)).flatten ++ (scanRefs s).2 = s := by
  induction f with
  | zero =>
    intro s h
    have hs : s = [] := List.length_eq_zero.mp (Nat.le_zero.mp h)
    subst hs
    rw [scanRefs_eq_none [] searchRef_nil]
    rfl
  | succ f ih =>
    intro s h
    cases hsr : searchRef s with
    | none =>
      rw [scanRefs_eq_none s hsr]
      rfl
    | some q =>
      rw [scanRefs_eq_some s q hsr]
      have hlen : q.2.2.length ≤ f := by
        have := searchRef_rest_length s q.1 q.2.1 q.2.2 (by rw [hsr])
        omega
      have hihq := ih q.2.2 hlen
      have hsq := searchRef_eq_append s q.1 q.2.1 q.2.2 (by rw [hsr])
      simp only [List.map_cons, List.flatten_cons, List.append_assoc]
      rw [hihq, hsq, List.append_assoc]

theorem scanRefs_join (s : Str) :
    ((scanRefs s).1.map (fun gr => gr.1 ++ gr.2.text)).flatten ++ (scanRefs s).2 = s :=
  scanRefs_join_aux s.length s (Nat.le_refl s.length)

/-! ## C7 (amended): the exact failure condition of the registry -/

theorem find?_update_hit (l : List (Str × Str)) (p n : Str)
    (h : l.any (fun e => e.1 = p) = true) :
    (l.map (fun e => if e.1 = p then (p, n) else e)).find?
      (fun e => decide (e.1 = p)) = some (p, n) := by
  induction l with
  | nil => simp at h
  | cons e t ih =>
    by_cases he : e.1 = p
    · simp [List.find?, he]
    · simp only [List.any_cons, he, decide_eq_true_eq, Bool.or_eq_true] at h
      have ht : t.any (fun e => e.1 = p) = true := by
        rcases h with h | h
        · exact h.elim
        · exact h
      simp [List.find?, he, ih ht]

theorem find?_append_fresh (l : List (Str × Str)) (p n : Str)
    (h : l.any (fun e => e.1 = p) = false) :
    (l ++ [(p, n)]).find? (fun e => decide (e.1 = p)) = some (p, n) := by
  induction l with
  | nil => simp
  | cons e t ih =>
    simp only [List.any_cons, Bool.or_eq_false_iff] at h
    obtain ⟨he, ht⟩ := h
    simp only [decide_eq_false_iff_not] at he
    simp [List.find?, he, ih ht]

/-- C7 (amended): `add` fails exactly when the short-name is already
present among the registry's values — whether it is held by a different
payload or by the same one; when the short-name is not yet in use as a
value, `add` succeeds and records the payload-to-short-name mapping. -/
theorem C7_amended_add_fails_iff_value_in_use (db : CitationDatabase) (p n : Str) :
    (db.add p n = none ↔ n ∈ db.values) ∧
    (∀ db2, db.add p n = some db2 → db2.get_shortname p = n) := by
  constructor
  · unfold CitationDatabase.add
    split
    · next h => simpa using h
    · next h =>
      constructor
      · intro hc
        split at hc <;> simp at hc
      · intro hv
        exact absurd hv h
  · intro db2 hadd
    unfold CitationDatabase.add at hadd
    split at hadd
    · simp at hadd
    · split at hadd
      · next hhas =>
        simp only [Option.some.injEq] at hadd
        subst hadd
        unfold CitationDatabase.get_shortname
        rw [find?_update_hit db.shortnames p n hhas]
      · next hhas =>
        simp only [Option.some.injEq] at hadd
        subst hadd
        unfold CitationDatabase.get_shortname
        rw [find?_append_fresh db.shortnames p n (Bool.eq_false_iff.mpr hhas)]

/-- Closed instance of the C7 amended theorem: adding into an empty
registry succeeds and records the mapping. -/
theorem C7_amended_witness :
    CitationDatabase.add ⟨[]⟩ "a".data "n".data = some ⟨[("a".data, "n".data)]⟩ ∧
    (CitationDatabase.mk [("a".data, "n".data)]).get_shortname "a".data = "n".data :=
  ⟨by decide,
   (C7_amended_add_fails_iff_value_in_use ⟨[]⟩ "a".data "n".data).2
     ⟨[("a".data, "n".data)]⟩ (by decide)⟩

/-! ## C8: the scanner registers first occurrences -/

theorem setAdd_mem (l : List Str) (x p : Str) :
    p ∈ setAdd l x ↔ p ∈ l ∨ p = x := by
  unfold setAdd
  split
  · next hx =>
    constructor
    · exact fun h => Or.inl h
    · rintro (h | h)
      · exact h
      · rw [h]; exact hx
  · simp

/-- Following the specification's wording: the registry contents fixed by
first occurrences — each distinct payload, in order of first appearance,
mapped to the short-name its first occurrence determines. -/
def firstOccAssignment (rs : List Ref) : List (Str × Str) :=
  rs.foldl
    (fun acc r =>
      if acc.any (fun e => e.1 = r.pay) then acc
      else acc ++ [(r.pay, parsedShortname r)])
    []

theorem add_fresh_eq (db : CitationDatabase) (p n : Str) (db2 : CitationDatabase)
    (hhas : db.has p = false) (h : db.add p n = some db2) :
    db2 = ⟨db.shortnames ++ [(p, n)]⟩ := by
  unfold CitationDatabase.add at h
  split at h
  · simp at h
  · rw [hhas] at h
    simp only [Bool.false_eq_true, if_false, Option.some.injEq] at h
    exact h.symm

theorem scanRefsList_success (rs : List Ref) :
    ∀ (db : CitationDatabase) (res : List Str) (db2 : CitationDatabase)
      (dups : List Str), scanRefsList rs db res = some (db2, dups) →
    db2.shortnames = rs.foldl
      (fun acc r =>
        if acc.any (fun e => e.1 = r.pay) then acc
        else acc ++ [(r.pay, parsedShortname r)]) db.shortnames ∧
    (∀ p, p ∈ dups ↔ p ∈ res ∨ (db.has p = true ∧ p ∈ rs.map Ref.pay) ∨
       2 ≤ (rs.map Ref.pay).count p) := by
  induction rs with
  | nil =>
    intro db res db2 dups h
    simp only [scanRefsList, Option.some.injEq, Prod.mk.injEq] at h
    obtain ⟨h1, h2⟩ := h
    subst h1; subst h2
    simp
  | cons r rest ih =>
    intro db res db2 dups h
    rw [scanRefsList] at h
    split at h
    · next hhas =>
      obtain ⟨ihdb, ihdup⟩ := ih db (setAdd res r.pay) db2 dups h
      constructor
      · rw [ihdb, List.foldl_cons]
        have hh : db.shortnames.any (fun e => e.1 = r.pay) = true := hhas
        rw [hh]
        simp
      · intro p
        rw [ihdup p, setAdd_mem res r.pay p]
        simp only [List.map_cons, List.mem_cons, List.count_cons]
        by_cases hp : p = r.pay
        · exact iff_of_true (Or.inl (Or.inr hp))
            (Or.inr (Or.inl ⟨hp ▸ hhas, Or.inl hp⟩))
        · have hne : (r.pay == p) = false :=
            beq_eq_false_iff_ne.mpr (fun he => hp he.symm)
          rw [hne]
          simp only [Bool.false_eq_true, if_false, Nat.add_zero]
          constructor
          · rintro ((h1 | h1) | h1 | h1)
            · exact Or.inl h1
            · exact absurd h1 hp
            · exact Or.inr (Or.inl ⟨h1.1, Or.inr h1.2⟩)
            · exact Or.inr (Or.inr h1)
          · rintro (h1 | h1 | h1)
            · exact Or.inl (Or.inl h1)
            · rcases h1.2 with h2 | h2
              · exact absurd h2 hp
              · exact Or.inr (Or.inl ⟨h1.1, h2⟩)
            · exact Or.inr (Or.inr h1)
    · next hhas =>
      have hhasf : db.has r.pay = false := Bool.eq_false_iff.mpr hhas
      cases hadd : db.add r.pay (parsedShortname r) with
      | none => rw [hadd] at h; simp at h
      | some dbx =>
        rw [hadd] at h
        dsimp only at h
        have hdbx := add_fresh_eq db r.pay (parsedShortname r) dbx hhasf hadd
        subst hdbx
        obtain ⟨ihdb, ihdup⟩ := ih _ res db2 dups h
        constructor
        · rw [ihdb, List.foldl_cons]
          have hh : db.shortnames.any (fun e => e.1 = r.pay) = false := hhasf
          rw [hh]
          simp
        · intro p
          rw [ihdup p]
          have hhasx : (CitationDatabase.mk
              (db.shortnames ++ [(r.pay, parsedShortname r)])).has p =
              (db.has p || decide (r.pay = p)) := by
            unfold CitationDatabase.has
            simp [List.any_append]
          rw [hhasx]
          simp only [List.map_cons, List.mem_cons, List.count_cons]
          have hmem : p ∈ rest.map Ref.pay ↔ 0 < (rest.map Ref.pay).count p :=
            List.count_pos_iff.symm
          by_cases hp : p = r.pay
          · subst hp
            rw [hhasf]
            simp only [Bool.false_or, decide_eq_true_eq, eq_self_iff_true,
              true_and, true_or, beq_self_eq_true, if_true, Bool.false_eq_true,
              false_and, false_or, List.count_cons_self]
            constructor
            · rintro (h1 | h1 | h1)
              · exact Or.inl h1
              · have := hmem.mp h1
                right; omega
              · right; omega
            · rintro (h1 | h1)
              · exact Or.inl h1
              · by_cases hm : r.pay ∈ rest.map Ref.pay
                · exact Or.inr (Or.inl hm)
                · have h0 : (rest.map Ref.pay).count r.pay = 0 :=
                    List.count_eq_zero.mpr hm
                  omega
          · have hpd : decide (r.pay = p) = false := by
              apply decide_eq_false
              exact fun he => hp he.symm
            have hbe : (r.pay == p) = false :=
              beq_eq_false_iff_ne.mpr (fun he => hp he.symm)
            rw [hpd, hbe, Bool.or_false]
            simp only [Bool.false_eq_true, if_false, Nat.add_zero]
            constructor
            · rintro (h1 | h1 | h1)
              · exact Or.inl h1
              · exact Or.inr (Or.inl ⟨h1.1, Or.inr h1.2⟩)
              · exact Or.inr (Or.inr h1)
            · rintro (h1 | h1 | h1)
              · exact Or.inl h1
              · rcases h1.2 with h2 | h2
                · exact absurd h2 hp
                · exact Or.inr (Or.inl ⟨h1.1, h2⟩)
              · exact Or.inr (Or.inr h1)

/-- C8: after the scanner pass, the registry is exactly the
first-occurrence assignment — each distinct payload, in order of first
appearance, is mapped to the short-name its first occurrence determines
(the quote-stripped explicit name when present, else the generated one);
later occurrences of a payload never change the registry and only mark
the payload as duplicated (the duplicate set holds exactly the payloads
with at least two occurrences). -/
theorem C8_scanner_first_occurrence (a : Str) (db : CitationDatabase)
    (dups : List Str) (h : get_duplicated_refs a ⟨[]⟩ = some (db, dups)) :
    db.shortnames = firstOccAssignment (refsOf a) ∧
    (∀ p, p ∈ dups ↔ 2 ≤ (payloadsOf a).count p) := by
  unfold get_duplicated_refs at h
  rw [get_duplicated_refs_go_list] at h
  obtain ⟨h1, h2⟩ := scanRefsList_success (refsOf a) ⟨[]⟩ [] db dups h
  refine ⟨h1, ?_⟩
  intro p
  rw [h2 p]
  simp [payloadsOf, CitationDatabase.has]

/-- Closed instance of the C8 theorem at `<ref>a</ref><ref>a</ref>`. -/
theorem C8_witness :
    ((⟨[("a".data, "a0cc175b9c0".data)]⟩ : CitationDatabase)).shortnames =
      firstOccAssignment (refsOf ("<ref>a</ref><ref>a</ref>".data)) ∧
    ("a".data ∈ ["a".data] ↔
      2 ≤ (payloadsOf ("<ref>a</ref><ref>a</ref>".data)).count "a".data) :=
  ⟨(C8_scanner_first_occurrence ("<ref>a</ref><ref>a</ref>".data)
      ⟨[("a".data, "a0cc175b9c0".data)]⟩ ["a".data] (by decide)).1,
   (C8_scanner_first_occurrence ("<ref>a</ref><ref>a</ref>".data)
      ⟨[("a".data, "a0cc175b9c0".data)]⟩ ["a".data] (by decide)).2 "a".data⟩

/-! ## C3 (amended): unique payloads -/

theorem scanRefsList_nodup_success (rs : List Ref) :
    ∀ (db : CitationDatabase) (res : List Str),
    (rs.map Ref.pay).Nodup → (∀ r ∈ rs, db.has r.pay = false) →
    (rs.map parsedShortname).Nodup →
    (∀ r ∈ rs, parsedShortname r ∉ db.values) →
    scanRefsList rs db res =
      some (⟨db.shortnames ++ rs.map (fun r => (r.pay, parsedShortname r))⟩, res) := by
  induction rs with
  | nil =>
    intro db res _ _ _ _
    simp [scanRefsList]
  | cons r rest ih =>
    intro db res hpay hdb hname hfresh
    rw [scanRefsList]
    have hhas : db.has r.pay = false := hdb r (List.mem_cons_self r rest)
    rw [hhas]
    simp only [Bool.false_eq_true, if_false]
    have hadd : db.add r.pay (parsedShortname r) =
        some ⟨db.shortnames ++ [(r.pay, parsedShortname r)]⟩ := by
      unfold CitationDatabase.add
      rw [if_neg (hfresh r (List.mem_cons_self r rest)), hhas]
      simp
    rw [hadd]
    dsimp only
    simp only [List.map_cons, List.nodup_cons] at hpay hname
    have hih := ih ⟨db.shortnames ++ [(r.pay, parsedShortname r)]⟩ res hpay.2
      (by
        intro rr hrr
        unfold CitationDatabase.has
        simp only [List.any_append, Bool.or_eq_false_iff]
        constructor
        · exact hdb rr (List.mem_cons_of_mem r hrr)
        · simp only [List.any_cons, List.any_nil, Bool.or_false,
            decide_eq_false_iff_not]
          intro he
          exact hpay.1 (he ▸ List.mem_map_of_mem Ref.pay hrr))
      hname.2
      (by
        intro rr hrr
        unfold CitationDatabase.values
        simp only [List.map_append, List.mem_append]
        rintro (hv | hv)
        · exact hfresh rr (List.mem_cons_of_mem r hrr) hv
        · simp only [List.map_cons, List.map_nil, List.mem_cons,
            List.not_mem_nil, or_false] at hv
          exact hname.1 (hv ▸ List.mem_map_of_mem parsedShortname hrr))
    rw [hih]
    simp

theorem scanRefsList_nodup_cases (rs : List Ref) :
    ∀ (db : CitationDatabase) (res : List Str),
    (rs.map Ref.pay).Nodup → (∀ r ∈ rs, db.has r.pay = false) →
    scanRefsList rs db res = none ∨
      ∃ db2, scanRefsList rs db res = some (db2, res) := by
  induction rs with
  | nil =>
    intro db res _ _
    right
    exact ⟨db, rfl⟩
  | cons r rest ih =>
    intro db res hpay hdb
    rw [scanRefsList]
    have hhas : db.has r.pay = false := hdb r (List.mem_cons_self r rest)
    rw [hhas]
    simp only [Bool.false_eq_true, if_false]
    cases hadd : db.add r.pay (parsedShortname r) with
    | none => left; rfl
    | some dbx =>
      dsimp only
      have hdbx := add_fresh_eq db r.pay (parsedShortname r) dbx hhas hadd
      subst hdbx
      simp only [List.map_cons, List.nodup_cons] at hpay
      exact ih _ res hpay.2
        (by
          intro rr hrr
          unfold CitationDatabase.has
          simp only [List.any_append, Bool.or_eq_false_iff]
          constructor
          · exact hdb rr (List.mem_cons_of_mem r hrr)
          · simp only [List.any_cons, List.any_nil, Bool.or_false,
              decide_eq_false_iff_not]
            intro he
            exact hpay.1 (he ▸ List.mem_map_of_mem Ref.pay hrr))

theorem rewriteScan_no_dups (db : CitationDatabase) :
    ∀ (prs : List (Str × Ref)) (last : Str) (seen : List Str),
    rewriteScan db [] prs last seen =
      ((prs.map (fun gr => gr.1 ++ gr.2.text)).flatten ++ last, 0) := by
  intro prs
  induction prs with
  | nil =>
    intro last seen
    simp [rewriteScan]
  | cons gr rest ih =>
    obtain ⟨g, r⟩ := gr
    intro last seen
    rw [rewriteScan]
    simp only [List.not_mem_nil, not_false_iff, if_true]
    rw [ih last seen]
    simp

/-- C3 (amended): for an article whose matched payloads are pairwise
distinct, `merge` either aborts on a short-name collision or returns the
article byte-for-byte unchanged with merge count 0 and an empty
duplicated list; when the assigned short-names are also pairwise
distinct, it returns that successful result. -/
theorem C3_amended_unique_payloads (a : Str) (hpay : (payloadsOf a).Nodup) :
    (merge a = none ∨ merge a = some (a, 0, [])) ∧
    (((refsOf a).map parsedShortname).Nodup → merge a = some (a, 0, [])) := by
  have hmergeform : ∀ db2, merge_go a db2 [] [] = (a, 0) := by
    intro db2
    rw [merge_go_scan, rewriteScan_no_dups, scanRefs_join]
  have hscan_shape : ∀ r, get_duplicated_refs a ⟨[]⟩ = some r → r.2 = [] := by
    intro r hr
    unfold get_duplicated_refs at hr
    rw [get_duplicated_refs_go_list] at hr
    rcases scanRefsList_nodup_cases (refsOf a) ⟨[]⟩ [] hpay (fun _ _ => rfl) with
      hc | ⟨db2, hc⟩
    · rw [hc] at hr
      exact absurd hr (by simp)
    · rw [hc] at hr
      injection hr with hr2
      rw [← hr2]
  have hmerge_some : ∀ r, get_duplicated_refs a ⟨[]⟩ = some r →
      merge a = some (a, 0, []) := by
    intro r hr
    have hd := hscan_shape r hr
    unfold merge
    rw [hr]
    dsimp only
    rw [hd, hmergeform r.1]
  constructor
  · cases hscan : get_duplicated_refs a ⟨[]⟩ with
    | none =>
      left
      unfold merge
      rw [hscan]
    | some r =>
      right
      exact hmerge_some r hscan
  · intro hname
    have hsucc : get_duplicated_refs a ⟨[]⟩ =
        some (⟨[] ++ (refsOf a).map (fun r => (r.pay, parsedShortname r))⟩, []) := by
      unfold get_duplicated_refs
      rw [get_duplicated_refs_go_list]
      exact scanRefsList_nodup_success (refsOf a) ⟨[]⟩ [] hpay (fun _ _ => rfl)
        hname (fun _ _ => by simp [CitationDatabase.values])
    exact hmerge_some _ hsucc

/-- Closed instance of the C3 amended theorem at the specification's
example `<ref>a</ref> <ref>b</ref>`. -/
theorem C3_amended_witness :
    (payloadsOf ("<ref>a</ref> <ref>b</ref>".data)).Nodup ∧
    merge ("<ref>a</ref> <ref>b</ref>".data) =
      some ("<ref>a</ref> <ref>b</ref>".data, 0, []) :=
  ⟨by decide,
   (C3_amended_unique_payloads ("<ref>a</ref> <ref>b</ref>".data) (by decide)).2
     (by decide)⟩

/-! ## C9: purity of `merge` with the global pattern state made explicit -/

/-- The module-level mutable state: the lazily compiled `TEMPLATE_NAMES`
and `TEMPLATE_PARAMS` patterns (represented by their alternative lists),
`none` while not yet initialised. -/
structure GlobalState where
  templateNames : Option (List Str)
  templateParams : Option (List Str)
deriving DecidableEq, Repr

/-- The reachable global states: each pattern is either uninitialised or
holds the pattern compiled from the module's literal. -/
def GlobalState.valid (g : GlobalState) : Prop :=
  (g.templateNames = none ∨ g.templateNames = some templateNamesList) ∧
  (g.templateParams = none ∨ g.templateParams = some templateParamsList)

/-- `generate_short_name` with the lazy initialisation of the global
template patterns made explicit: missing patterns are compiled (always
from the same module literals) and the updated state is returned. -/
def generate_short_name_st (g : GlobalState) (payload : Str) :
    Str × GlobalState :=
  let tn := g.templateNames.getD templateNamesList
  let tp := g.templateParams.getD templateParamsList
  let s := templateParamsSubWith tp (templateNamesSubWith tn (urlSubAll payload))
  let words := s.filter isWordChar
  let name := words.take 8 ++ md5hex (strBytes payload)
  ((match name.head? with
    | some c => if c.isDigit then ['_'] else []
    | none => []) ++ name.take 11, ⟨some tn, some tp⟩)

/-- The scanner's short-name choice, with the global state threaded. -/
def parsedShortname_st (g : GlobalState) (r : Ref) : Str × GlobalState :=
  match searchName r.nameStr with
  | some v => (stripQuote v, g)
  | none => generate_short_name_st g r.pay

/-- The duplicate-scanner loop with the global state threaded (the only
part of `merge` that can touch the module-level state). -/
def get_duplicated_refs_goF_st (fuel : Nat) (s : Str) (db : CitationDatabase)
    (result : List Str) (g : GlobalState) :
    Option (CitationDatabase × List Str) × GlobalState :=
  match fuel with
  | 0 => (some (db, result), g)
  | f + 1 =>
    match searchRef s with
    | none => (some (db, result), g)
    | some q =>
      if db.has q.2.1.pay then
        get_duplicated_refs_goF_st f q.2.2 db (setAdd result q.2.1.pay) g
      else
        let pn := parsedShortname_st g q.2.1
        match db.add q.2.1.pay pn.1 with
        | some db2 => get_duplicated_refs_goF_st f q.2.2 db2 result pn.2
        | none => (none, pn.2)

/-- `merge` with the global state threaded. -/
def merge_st (g : GlobalState) (article : Str) :
    Option (Str × Nat × List Str) × GlobalState :=
  match get_duplicated_refs_goF_st article.length article ⟨[]⟩ [] g with
  | (none, g2) => (none, g2)
  | (some r, g2) =>
    let p := merge_go article r.1 r.2 []
    (some (p.1, p.2, r.2), g2)

theorem generate_short_name_st_valid (g : GlobalState) (p : Str)
    (h : g.valid) :
    generate_short_name_st g p =
      (generate_short_name p, ⟨some templateNamesList, some templateParamsList⟩) := by
  obtain ⟨h1, h2⟩ := h
  unfold generate_short_name_st generate_short_name
  rcases h1 with h1 | h1 <;> rcases h2 with h2 | h2 <;> rw [h1, h2] <;> rfl

theorem parsedShortname_st_valid (g : GlobalState) (r : Ref) (h : g.valid) :
    (parsedShortname_st g r).1 = parsedShortname r ∧
    (parsedShortname_st g r).2.valid := by
  unfold parsedShortname_st parsedShortname
  cases searchName r.nameStr with
  | some v => exact ⟨rfl, h⟩
  | none =>
    rw [generate_short_name_st_valid g r.pay h]
    exact ⟨rfl, Or.inr rfl, Or.inr rfl⟩

theorem get_duplicated_refs_goF_st_valid (f : Nat) :
    ∀ (s : Str) (db : CitationDatabase) (res : List Str) (g : GlobalState),
    g.valid →
    (get_duplicated_refs_goF_st f s db res g).1 =
      get_duplicated_refs_goF f s db res ∧
    (get_duplicated_refs_goF_st f s db res g).2.valid := by
  induction f with
  | zero =>
    intro s db res g hg
    exact ⟨rfl, hg⟩
  | succ f ih =>
    intro s db res g hg
    rw [get_duplicated_refs_goF_st, get_duplicated_refs_goF]
    cases searchRef s with
    | none => exact ⟨rfl, hg⟩
    | some q =>
      dsimp only
      by_cases hhas : db.has q.2.1.pay = true
      · simp only [hhas, if_true]
        exact ih q.2.2 db (setAdd res q.2.1.pay) g hg
      · simp only [hhas, if_false]
        obtain ⟨hp1, hp2⟩ := parsedShortname_st_valid g q.2.1 hg
        rw [hp1]
        cases db.add q.2.1.pay (parsedShortname q.2.1) with
        | none => exact ⟨rfl, hp2⟩
        | some db2 => exact ih q.2.2 db2 res (parsedShortname_st g q.2.1).2 hp2

theorem merge_st_pure (g : GlobalState) (a : Str) (h : g.valid) :
    (merge_st g a).1 = merge a ∧ (merge_st g a).2.valid := by
  obtain ⟨h1, h2⟩ := get_duplicated_refs_goF_st_valid a.length a ⟨[]⟩ [] g h
  unfold merge_st
  unfold merge get_duplicated_refs get_duplicated_refs_go
  rw [← h1]
  cases hst : get_duplicated_refs_goF_st a.length a ⟨[]⟩ [] g with
  | mk o g2 =>
    rw [hst] at h2
    cases o with
    | none => exact ⟨rfl, h2⟩
    | some r => exact ⟨rfl, h2⟩

/-- C9: `merge` is a pure deterministic function of its article argument.
With the module's only mutable state — the lazily initialised template
patterns — made explicit, running it from any reachable state yields the
pure function's triple (same text, same count, same list in the same
order), two invocations from reachable states agree, and re-invoking it
on the state it leaves behind returns the same result again. -/
theorem C9_merge_deterministic (a : Str) (g1 g2 : GlobalState)
    (h1 : g1.valid) (h2 : g2.valid) :
    (merge_st g1 a).1 = merge a ∧
    (merge_st g1 a).1 = (merge_st g2 a).1 ∧
    (merge_st ((merge_st g1 a).2) a).1 = (merge_st g1 a).1 := by
  obtain ⟨e1, v1⟩ := merge_st_pure g1 a h1
  obtain ⟨e2, v2⟩ := merge_st_pure g2 a h2
  obtain ⟨e3, v3⟩ := merge_st_pure ((merge_st g1 a).2) a v1
  exact ⟨e1, by rw [e1, e2], by rw [e3, e1]⟩

/-- Closed instance of the C9 theorem: from the fresh state and from the
fully initialised state. -/
theorem C9_witness :
    (merge_st ⟨none, none⟩ ("<ref>a</ref><ref>a</ref>".data)).1 =
      merge ("<ref>a</ref><ref>a</ref>".data) ∧
    (merge_st ⟨none, none⟩ ("<ref>a</ref><ref>a</ref>".data)).1 =
      (merge_st ⟨some templateNamesList, some templateParamsList⟩
        ("<ref>a</ref><ref>a</ref>".data)).1 ∧
    (merge_st ((merge_st ⟨none, none⟩ ("<ref>a</ref><ref>a</ref>".data)).2)
        ("<ref>a</ref><ref>a</ref>".data)).1 =
      (merge_st ⟨none, none⟩ ("<ref>a</ref><ref>a</ref>".data)).1 :=
  C9_merge_deterministic ("<ref>a</ref><ref>a</ref>".data) ⟨none, none⟩
    ⟨some templateNamesList, some templateParamsList⟩
    ⟨Or.inl rfl, Or.inl rfl⟩ ⟨Or.inr rfl, Or.inr rfl⟩

/-! ## The shape of matched occurrences -/

/-- The payload of a match contains no occurrence of the closing tag,
also not one spanning into an appended closing tag: matching is safe to
re-run.  Stated on `v ++ closer` only, which by `closer`'s length fixes
the whole window. -/
def paySafe (pay : Str) : Prop :=
  ∀ v : Str, v <:+ pay → v ≠ [] → ¬ closer.isPrefixOf (v ++ closer) = true

/-- The facts `REF_PATTERN` guarantees about a matched occurrence. -/
def goodRef (r : Ref) : Prop :=
  (∀ c ∈ r.nameStr, c ≠ '>') ∧
  r.nameStr.getLast? ≠ some '/' ∧
  (∀ c, r.nameStr.head? = some c → isWordChar c = false) ∧
  paySafe r.pay

theorem prefix_transfer (pat u x y : Str) (h : pat.length ≤ u.length)
    (hp : pat.isPrefixOf (u ++ x) = true) : pat.isPrefixOf (u ++ y) = true := by
  rw [List.isPrefixOf_iff_prefix] at hp ⊢
  have h1 : pat = (u ++ x).take pat.length := List.prefix_iff_eq_take.mp hp
  rw [List.take_append_of_le_length h] at h1
  rw [List.prefix_iff_eq_take, List.take_append_of_le_length h]
  exact h1

theorem splitFirst_first (pat s b a : Str) (h : splitFirst pat s = some (b, a)) :
    ∀ u v, b = u ++ v → v ≠ [] → ¬ pat.isPrefixOf (v ++ pat ++ a) = true := by
  induction s generalizing b with
  | nil => simp [splitFirst] at h
  | cons c t ih =>
    rw [splitFirst] at h
    split at h
    · simp only [Option.some.injEq, Prod.mk.injEq] at h
      intro u v hb hv
      rw [← h.1] at hb
      have : v = [] := by
        have := congrArg List.length hb
        simp at this
        exact List.length_eq_zero.mp (by omega)
      exact absurd this hv
    · next hnp =>
      split at h
      · next p heq =>
        simp only [Option.some.injEq, Prod.mk.injEq] at h
        obtain ⟨hb, ha⟩ := h
        intro u v hbv hv
        have ht := splitFirst_eq_append pat t p.1 p.2 (by rw [heq])
        cases u with
        | nil =>
          simp only [List.nil_append] at hbv
          have hveq : v ++ pat ++ a = c :: t := by
            rw [← hbv, ← hb, ht, ← ha]
            simp
          rw [hveq]
          exact hnp
        | cons c2 u2 =>
          rw [← hb] at hbv
          simp only [List.cons_append, List.cons.injEq] at hbv
          exact ih p.1 (by rw [heq, ← ha]) u2 v hbv.2 hv
      · simp at h

theorem splitFirst_isSome (pat : Str) (hpat : pat ≠ []) : ∀ (u1 u2 : Str),
    (splitFirst pat (u1 ++ pat ++ u2)).isSome = true := by
  intro u1
  induction u1 with
  | nil =>
    intro u2
    simp only [List.nil_append]
    cases hq : pat ++ u2 with
    | nil =>
      rcases List.append_eq_nil.mp hq with ⟨h1, _⟩
      exact absurd h1 hpat
    | cons d w =>
      rw [splitFirst]
      rw [if_pos (by rw [← hq]; exact List.isPrefixOf_iff_prefix.mpr ⟨u2, rfl⟩)]
      simp
  | cons c u1t ih =>
    intro u2
    have hassoc : (c :: u1t) ++ pat ++ u2 = c :: (u1t ++ pat ++ u2) := by simp
    rw [hassoc, splitFirst]
    split
    · simp
    · have := ih u2
      cases hsp : splitFirst pat (u1t ++ pat ++ u2) with
      | none => rw [hsp] at this; simp at this
      | some p => simp

theorem matchRefHere_goodRef (s : Str) (r : Ref) (rest : Str)
    (h : matchRefHere s = some (r, rest)) : goodRef r := by
  unfold matchRefHere at h
  split at h
  · next hp =>
    dsimp only at h
    split at h
    · next hbd =>
      split at h
      · next t2 heq =>
        split at h
        · simp at h
        · next hsl =>
          split at h
          · next p hsp =>
            simp only [Option.some.injEq, Prod.mk.injEq] at h
            obtain ⟨hr, hrest⟩ := h
            rw [← hr]
            refine ⟨?_, ?_, ?_, ?_⟩
            · intro c hc
              have := List.mem_takeWhile_imp hc
              simpa using this
            · exact hsl
            · intro c hc
              unfold boundaryOK at hbd
              have hhead : (s.drop 4).head? = some c := by
                have htw : s.drop 4 =
                    (s.drop 4).takeWhile (fun c => decide (c ≠ '>')) ++
                      ('>' :: t2) := by
                  conv_lhs => rw [← List.takeWhile_append_dropWhile
                    (fun c => decide (c ≠ '>')) (s.drop 4)]
                  rw [heq]
                rw [htw]
                cases hcase : (s.drop 4).takeWhile (fun c => decide (c ≠ '>')) with
                | nil => rw [hcase] at hc; simp at hc
                | cons c0 t0 =>
                  rw [hcase] at hc
                  simp only [List.head?_cons] at hc
                  injection hc with hc
                  rw [← hc]
                  rfl
              rw [hhead] at hbd
              simpa using hbd
            · intro v hsuf hv
              obtain ⟨w, hw⟩ := hsuf
              have hfirst := splitFirst_first closer t2 p.1 p.2 (by rw [hsp]) w v
                hw.symm hv
              intro hc
              apply hfirst
              have hlen : closer.length ≤ (v ++ closer).length := by
                simp
              exact prefix_transfer closer (v ++ closer) [] p.2 hlen
                (by simpa using hc)
          · simp at h
      · simp at h
    · simp at h
  · simp at h

theorem splitFirst_cons (pat : Str) (c : Char) (t : Str) :
    splitFirst pat (c :: t) =
      if pat.isPrefixOf (c :: t) then some ([], (c :: t).drop pat.length)
      else
        match splitFirst pat t with
        | some p => some (c :: p.1, p.2)
        | none => none := rfl

theorem splitFirst_of_paySafe (pay : Str) (rest : Str) (h : paySafe pay) :
    splitFirst closer (pay ++ closer ++ rest) = some (pay, rest) := by
  induction pay with
  | nil =>
    have hsh : closer ++ rest = '<' :: ("/ref>".data ++ rest) := rfl
    simp only [List.nil_append]
    rw [hsh, splitFirst_cons]
    rw [if_pos (by rw [← hsh]; exact List.isPrefixOf_iff_prefix.mpr ⟨rest, rfl⟩)]
    rw [← hsh, List.drop_left]
  | cons c pt ih =>
    have hsh : (c :: pt) ++ closer ++ rest = c :: (pt ++ closer ++ rest) := by simp
    rw [hsh, splitFirst_cons]
    rw [if_neg]
    · rw [ih (by
        intro v hsuf hv
        exact h v (by obtain ⟨u, hu⟩ := hsuf; exact ⟨c :: u, by rw [← hu]; rfl⟩) hv)]
    · intro hc
      have hassoc : c :: (pt ++ closer ++ rest) = ((c :: pt) ++ closer) ++ rest := by
        simp
      rw [hassoc] at hc
      have := prefix_transfer closer ((c :: pt) ++ closer) rest []
        (by simp only [List.length_append, List.length_cons]; omega) hc
      exact h (c :: pt) (List.suffix_refl (c :: pt)) (by simp) (by simpa using this)

theorem matchRefHere_of_goodRef (r : Ref) (rest : Str) (h : goodRef r) :
    matchRefHere (r.text ++ rest) = some (r, rest) := by
  obtain ⟨hgt, hsl, hbd, hps⟩ := h
  unfold matchRefHere
  have htext : r.text ++ rest =
      openTag ++ (r.nameStr ++ '>' :: (r.pay ++ closer ++ rest)) := by
    simp [Ref.text]
  rw [htext]
  rw [if_pos (List.isPrefixOf_iff_prefix.mpr ⟨_, rfl⟩)]
  dsimp only
  have hdrop : (openTag ++ (r.nameStr ++ '>' :: (r.pay ++ closer ++ rest))).drop 4 =
      r.nameStr ++ '>' :: (r.pay ++ closer ++ rest) := by
    have h4 : (4 : Nat) = openTag.length := by decide
    rw [h4, List.drop_left]
  rw [hdrop]
  have hbok : boundaryOK (r.nameStr ++ '>' :: (r.pay ++ closer ++ rest)) = true := by
    unfold boundaryOK
    cases hns : r.nameStr with
    | nil =>
      simp only [List.nil_append, List.head?_cons]
      decide
    | cons c ns2 =>
      have := hbd c (by rw [hns]; rfl)
      simp [this]
  rw [if_pos hbok]
  have htw : (r.nameStr ++ '>' :: (r.pay ++ closer ++ rest)).takeWhile
      (fun c => decide (c ≠ '>')) = r.nameStr := by
    rw [List.takeWhile_append_of_pos (by intro a ha; simpa using hgt a ha)]
    simp [List.takeWhile_cons]
  have hdw : (r.nameStr ++ '>' :: (r.pay ++ closer ++ rest)).dropWhile
      (fun c => decide (c ≠ '>')) = '>' :: (r.pay ++ closer ++ rest) := by
    rw [List.dropWhile_append_of_pos (by intro a ha; simpa using hgt a ha)]
    simp [List.dropWhile_cons]
  rw [htw, hdw]
  split
  · next t2 heq =>
    injection heq with h1 h2
    rw [if_neg hsl, ← h2, splitFirst_of_paySafe r.pay rest hps]
  · next hne => exact absurd rfl (hne (r.pay ++ closer ++ rest))

theorem searchRef_head_match (s g : Str) (r : Ref) (rest : Str)
    (h : searchRef s = some (g, r, rest)) :
    matchRefHere (r.text ++ rest) = some (r, rest) ∧ goodRef r := by
  induction s generalizing g with
  | nil => simp [searchRef] at h
  | cons c t ih =>
    rw [searchRef] at h
    split at h
    · next p heq =>
      simp only [Option.some.injEq, Prod.mk.injEq] at h
      obtain ⟨hg, hr, hrest⟩ := h
      have happ := matchRefHere_eq_append (c :: t) p.1 p.2 (by rw [heq])
      have hmr : matchRefHere (r.text ++ rest) = some (r, rest) := by
        rw [← hr, ← hrest, ← happ, heq]
      exact ⟨hmr, matchRefHere_goodRef (r.text ++ rest) r rest hmr⟩
    · split at h
      · next q heq =>
        simp only [Option.some.injEq, Prod.mk.injEq] at h
        obtain ⟨hg, hr, hrest⟩ := h
        exact ih q.1 (by rw [heq, ← hr, ← hrest])
      · simp at h

theorem searchRef_gap_fail (s g : Str) (r : Ref) (rest : Str)
    (h : searchRef s = some (g, r, rest)) :
    ∀ u v, g = u ++ v → v ≠ [] → matchRefHere (v ++ r.text ++ rest) = none := by
  induction s generalizing g with
  | nil => simp [searchRef] at h
  | cons c t ih =>
    rw [searchRef] at h
    split at h
    · next p heq =>
      simp only [Option.some.injEq, Prod.mk.injEq] at h
      obtain ⟨hg, hr, hrest⟩ := h
      intro u v hguv hv
      rw [← hg] at hguv
      have : v = [] := by
        have := congrArg List.length hguv
        simp at this
        exact List.length_eq_zero.mp (by omega)
      exact absurd this hv
    · next hnone =>
      split at h
      · next q heq =>
        simp only [Option.some.injEq, Prod.mk.injEq] at h
        obtain ⟨hg, hr, hrest⟩ := h
        intro u v hguv hv
        cases u with
        | nil =>
          simp only [List.nil_append] at hguv
          have ht := searchRef_eq_append t q.1 q.2.1 q.2.2 (by rw [heq])
          have hveq : v ++ r.text ++ rest = c :: t := by
            rw [← hguv, ← hg, ht, ← hr, ← hrest]
            simp
          rw [hveq]
          exact hnone
        | cons c2 u2 =>
          rw [← hg] at hguv
          simp only [List.cons_append, List.cons.injEq] at hguv
          exact ih q.1 (by rw [heq, ← hr, ← hrest]) u2 v hguv.2 hv
      · simp at h

/-- The original text after an occurrence: the remaining gaps, matched
tags and the trailing text. -/
def tailText (prs : List (Str × Ref)) (last : Str) : Str :=
  (prs.map (fun gr => gr.1 ++ gr.2.text)).flatten ++ last

/-- Everything the original scan guarantees about its result: each
occurrence is good, no match starts inside a gap, and no match starts in
the trailing text. -/
def ScanShape : List (Str × Ref) → Str → Prop
  | [], last => searchRef last = none
  | (g, r) :: prs, last =>
      goodRef r ∧
      (∀ u v, g = u ++ v → v ≠ [] →
        matchRefHere (v ++ r.text ++ tailText prs last) = none) ∧
      ScanShape prs last

theorem scanRefs_shape_aux (f : Nat) : ∀ (s : Str), s.length ≤ f →
    ScanShape (scanRefs s).1 (scanRefs s).2 := by
  induction f with
  | zero =>
    intro s h
    have hs : s = [] := List.length_eq_zero.mp (Nat.le_zero.mp h)
    subst hs
    rw [scanRefs_eq_none [] searchRef_nil]
    exact searchRef_nil
  | succ f ih =>
    intro s h
    cases hsr : searchRef s with
    | none =>
      rw [scanRefs_eq_none s hsr]
      exact hsr
    | some q =>
      rw [scanRefs_eq_some s q hsr]
      have hlen : q.2.2.length ≤ f := by
        have := searchRef_rest_length s q.1 q.2.1 q.2.2 (by rw [hsr])
        omega
      have htail : tailText (scanRefs q.2.2).1 (scanRefs q.2.2).2 = q.2.2 :=
        scanRefs_join q.2.2
      refine ⟨(searchRef_head_match s q.1 q.2.1 q.2.2 (by rw [hsr])).2, ?_, ih q.2.2 hlen⟩
      rw [htail]
      exact searchRef_gap_fail s q.1 q.2.1 q.2.2 (by rw [hsr])

theorem scanRefs_shape (s : Str) : ScanShape (scanRefs s).1 (scanRefs s).2 :=
  scanRefs_shape_aux s.length s (Nat.le_refl s.length)

/-! ## Skipping over text in which no match can start -/

/-- No match of `REF_PATTERN` starts inside `x` when `x` is followed by
`y`. -/
def SkipIn (x y : Str) : Prop :=
  ∀ u v, x = u ++ v → v ≠ [] → matchRefHere (v ++ y) = none

theorem skipIn_append (x1 x2 y : Str) (h1 : SkipIn x1 (x2 ++ y))
    (h2 : SkipIn x2 y) : SkipIn (x1 ++ x2) y := by
  intro u v huv hv
  rcases List.append_eq_append_iff.mp huv with ⟨a, ha1, ha2⟩ | ⟨c, hc1, hc2⟩
  · exact h2 a v ha2 hv
  · cases hcc : c with
    | nil =>
      rw [hcc] at hc2
      simp only [List.nil_append] at hc2
      subst hc2
      exact h2 [] v rfl hv
    | cons c0 ct =>
      have := h1 u c (by rw [hc1]) (by rw [hcc]; simp)
      rw [hc2, List.append_assoc]
      exact this

theorem searchRef_skip (x y : Str) (hx : SkipIn x y) :
    searchRef (x ++ y) = (searchRef y).map (fun q => (x ++ q.1, q.2.1, q.2.2)) := by
  induction x with
  | nil =>
    simp only [List.nil_append]
    cases searchRef y with
    | none => rfl
    | some q => rfl
  | cons c t ih =>
    rw [List.cons_append, searchRef]
    have hnone : matchRefHere (c :: (t ++ y)) = none := by
      have := hx [] (c :: t) rfl (by simp)
      simpa using this
    rw [hnone]
    have hih := ih (by
      intro u v huv hv
      exact hx (c :: u) v (by rw [huv]; rfl) hv)
    rw [hih]
    cases searchRef y with
    | none => rfl
    | some q => rfl

theorem refsOf_skip (x y : Str) (hx : SkipIn x y) : refsOf (x ++ y) = refsOf y := by
  cases hy : searchRef y with
  | none =>
    have hs := searchRef_skip x y hx
    rw [hy] at hs
    simp only [Option.map_none'] at hs
    rw [refsOf_eq_none _ hs, refsOf_eq_none _ hy]
  | some q =>
    have hs := searchRef_skip x y hx
    rw [hy] at hs
    simp only [Option.map_some'] at hs
    rw [refsOf_eq_some _ _ hs, refsOf_eq_some _ _ hy]

theorem matchRefHere_ne_lt (c : Char) (t : Str) (hc : c ≠ '<') :
    matchRefHere (c :: t) = none := by
  unfold matchRefHere
  rw [if_neg]
  intro hp
  obtain ⟨w, hw⟩ := List.isPrefixOf_iff_prefix.mp hp
  have : '<' = c := by
    have := congrArg List.head? hw
    simpa [openTag] using this
  exact hc this.symm

theorem openTag_prefix_restrict (v z : Str) (h4 : 4 ≤ v.length)
    (hp : openTag.isPrefixOf (v ++ z) = true) : openTag.isPrefixOf v = true := by
  have hlen : openTag.length ≤ v.length := by
    have h0 : openTag.length = 4 := by decide
    rw [h0]
    exact h4
  have h1 := prefix_transfer openTag v z [] hlen hp
  simpa using h1

theorem openTag_prefix_short (v z : Str) (hv : v ≠ []) (hlen : v.length < 4)
    (hz : z = [] ∨ z.head? = some '<') : openTag.isPrefixOf (v ++ z) = false := by
  have hz2 : z = [] ∨ ∃ zt, z = '<' :: zt := by
    rcases hz with hz | hz
    · exact Or.inl hz
    · cases z with
      | nil => exact Or.inl rfl
      | cons zc zt =>
        simp only [List.head?_cons, Option.some.injEq] at hz
        exact Or.inr ⟨zt, by rw [hz]⟩
  rcases v with _ | ⟨a, _ | ⟨b, _ | ⟨d, v4⟩⟩⟩
  · exact absurd rfl hv
  · rcases hz2 with hz2 | ⟨zt, hz2⟩ <;> subst hz2 <;> simp [openTag, List.isPrefixOf]
  · rcases hz2 with hz2 | ⟨zt, hz2⟩ <;> subst hz2 <;> simp [openTag, List.isPrefixOf]
  · have hv4 : v4.length = 0 := by
      simp only [List.length_cons] at hlen
      omega
    have : v4 = [] := List.length_eq_zero.mp hv4
    subst this
    rcases hz2 with hz2 | ⟨zt, hz2⟩ <;> subst hz2 <;> simp [openTag, List.isPrefixOf]

theorem getLast?_append_right (l1 l2 : Str) (h : l2 ≠ []) :
    (l1 ++ l2).getLast? = l2.getLast? := by
  rw [List.getLast?_append]
  cases hl : l2.getLast? with
  | none =>
    cases l2 with
    | nil => exact absurd rfl h
    | cons c t => simp at hl
  | some x => rfl

theorem takeWhile_append_of_break (l X : Str) (x : Char) (hx : x ∈ l) :
    (l ++ X).takeWhile (fun c => decide (c ≠ x)) =
      l.takeWhile (fun c => decide (c ≠ x)) ∧
    (l ++ X).dropWhile (fun c => decide (c ≠ x)) =
      l.dropWhile (fun c => decide (c ≠ x)) ++ X := by
  induction l with
  | nil => simp at hx
  | cons c t ih =>
    by_cases hc : c = x
    · subst hc
      constructor
      · simp [List.takeWhile_cons]
      · simp [List.dropWhile_cons]
    · have hxt : x ∈ t := by
        rcases List.mem_cons.mp hx with h1 | h1
        · exact absurd h1.symm hc
        · exact h1
      obtain ⟨ih1, ih2⟩ := ih hxt
      have hcx : decide (c ≠ x) = true := by simp [hc]
      constructor
      · simp only [List.cons_append, List.takeWhile_cons, hcx, eq_self_iff_true, if_true, ih1]
      · simp only [List.cons_append, List.dropWhile_cons, hcx, eq_self_iff_true, if_true, ih2]

theorem dropWhile_ne_break (l : Str) (x : Char) (hx : x ∈ l) :
    ∃ a2, l.dropWhile (fun c => decide (c ≠ x)) = x :: a2 := by
  induction l with
  | nil => simp at hx
  | cons c t ih =>
    by_cases hc : c = x
    · subst hc
      refine ⟨t, ?_⟩
      simp [List.dropWhile_cons]
    · have hxt : x ∈ t := by
        rcases List.mem_cons.mp hx with h1 | h1
        · exact absurd h1.symm hc
        · exact h1
      obtain ⟨a2, ha2⟩ := ih hxt
      have hcx : decide (c ≠ x) = true := by simp [hc]
      refine ⟨a2, ?_⟩
      simp only [List.dropWhile_cons, hcx, eq_self_iff_true, if_true, ha2]

/-- A match attempt that reaches the payload search with a closing tag in
sight succeeds: the shape `<ref` ++ A ++ `>` ++ B with no `>` in A, a
passing boundary, a passing lookbehind, and a closing tag inside B. -/
theorem matchRefHere_some_shape (A B : Str)
    (hA : ∀ c ∈ A, c ≠ '>')
    (hB : ∃ u1 u2, B = u1 ++ closer ++ u2)
    (hbound : boundaryOK (A ++ '>' :: B) = true)
    (hlast : ¬ A.getLast? = some '/') :
    matchRefHere (openTag ++ (A ++ '>' :: B)) ≠ none := by
  unfold matchRefHere
  rw [if_pos (List.isPrefixOf_iff_prefix.mpr ⟨_, rfl⟩)]
  dsimp only
  have hdrop : (openTag ++ (A ++ '>' :: B)).drop 4 = A ++ '>' :: B := by
    have h4 : (4 : Nat) = openTag.length := by decide
    rw [h4, List.drop_left]
  rw [hdrop, if_pos hbound]
  have htw : (A ++ '>' :: B).takeWhile (fun c => decide (c ≠ '>')) = A := by
    rw [List.takeWhile_append_of_pos (by intro a ha; simpa using hA a ha)]
    simp [List.takeWhile_cons]
  have hdw : (A ++ '>' :: B).dropWhile (fun c => decide (c ≠ '>')) = '>' :: B := by
    rw [List.dropWhile_append_of_pos (by intro a ha; simpa using hA a ha)]
    simp [List.dropWhile_cons]
  rw [htw, hdw]
  split
  · next t2 heq =>
    injection heq with h1 h2
    rw [if_neg hlast, ← h2]
    obtain ⟨u1, u2, hBeq⟩ := hB
    rw [hBeq]
    have hsome := splitFirst_isSome closer (by decide) u1 u2
    cases hsp : splitFirst closer (u1 ++ closer ++ u2) with
    | none => rw [hsp] at hsome; simp at hsome
    | some p => simp
  · next hne => exact absurd rfl (hne B)

theorem openTag_no_gt : ∀ c ∈ openTag, c ≠ '>' := by decide

/-- `SkipIn` for a text whose only `>` is terminal and preceded by `/`:
no ref match can start inside it, whatever follows. -/
theorem skipIn_slash_gt (x0 : Str) (hx0 : '>' ∉ x0) (y : Str) :
    SkipIn (x0 ++ ['/', '>']) y := by
  intro u v huv hv
  rcases List.append_eq_append_iff.mp huv with ⟨a, ha1, ha2⟩ | ⟨c, hc1, hc2⟩
  · rcases a with _ | ⟨a0, at1⟩
    · simp only [List.nil_append] at ha2
      rw [← ha2]
      exact matchRefHere_ne_lt '/' ('>' :: y) (by decide)
    · simp only [List.cons_append] at ha2
      injection ha2 with h1 h2
      rcases at1 with _ | ⟨b0, bt⟩
      · simp only [List.nil_append] at h2
        rw [← h2]
        exact matchRefHere_ne_lt '>' y (by decide)
      · simp only [List.cons_append] at h2
        injection h2 with h3 h4
        have hlen := congrArg List.length h4
        simp only [List.length_nil, List.length_append] at hlen
        have hv0 : v.length = 0 := by omega
        exact absurd (List.length_eq_zero.mp hv0) hv
  · cases hcc : c with
    | nil =>
      subst hcc
      simp only [List.nil_append] at hc2
      rw [hc2]
      exact matchRefHere_ne_lt '/' ('>' :: y) (by decide)
    | cons c0 ct =>
      subst hcc
      have hgtc : '>' ∉ c0 :: ct := by
        intro hm
        exact hx0 (hc1 ▸ List.mem_append_right u hm)
      have hvy : v ++ y = (c0 :: ct) ++ ('/' :: '>' :: y) := by
        rw [hc2]
        simp
      rw [hvy]
      by_cases hp : openTag.isPrefixOf ((c0 :: ct) ++ ('/' :: '>' :: y)) = true
      · have h4 : 4 ≤ (c0 :: ct).length := by
          by_contra hlt
          push_neg at hlt
          rcases ct with _ | ⟨d1, _ | ⟨d2, d3⟩⟩
          · simp [openTag, List.isPrefixOf] at hp
          · simp [openTag, List.isPrefixOf] at hp
          · have hd3 : d3.length = 0 := by
              simp only [List.length_cons] at hlt
              omega
            have : d3 = [] := List.length_eq_zero.mp hd3
            subst this
            simp [openTag, List.isPrefixOf] at hp
        have hpc : openTag.isPrefixOf (c0 :: ct) = true :=
          openTag_prefix_restrict (c0 :: ct) ('/' :: '>' :: y) h4 hp
        obtain ⟨c4, hc4⟩ := List.isPrefixOf_iff_prefix.mp hpc
        have hshape : (c0 :: ct) ++ ('/' :: '>' :: y) =
            openTag ++ ((c4 ++ ['/']) ++ '>' :: y) := by
          rw [← hc4]
          simp
        rw [hshape]
        unfold matchRefHere
        rw [if_pos (List.isPrefixOf_iff_prefix.mpr ⟨_, rfl⟩)]
        dsimp only
        have hdrop : (openTag ++ ((c4 ++ ['/']) ++ '>' :: y)).drop 4 =
            (c4 ++ ['/']) ++ '>' :: y := by
          have hlen4 : (4 : Nat) = openTag.length := by decide
          rw [hlen4, List.drop_left]
        rw [hdrop]
        split
        · have hgtc4 : ∀ e ∈ c4 ++ ['/'], (e ≠ '>') := by
            intro e he
            rcases List.mem_append.mp he with he | he
            · intro heq
              apply hgtc
              rw [← hc4, ← heq]
              exact List.mem_append_right openTag he
            · simp only [List.mem_singleton] at he
              rw [he]
              decide
          have htw : ((c4 ++ ['/']) ++ '>' :: y).takeWhile
              (fun c => decide (c ≠ '>')) = c4 ++ ['/'] := by
            rw [List.takeWhile_append_of_pos (by intro a ha; simpa using hgtc4 a ha)]
            simp [List.takeWhile_cons]
          have hdw : ((c4 ++ ['/']) ++ '>' :: y).dropWhile
              (fun c => decide (c ≠ '>')) = '>' :: y := by
            rw [List.dropWhile_append_of_pos (by intro a ha; simpa using hgtc4 a ha)]
            simp [List.dropWhile_cons]
          rw [htw, hdw]
          split
          · next t2 heq =>
            rw [if_pos (List.getLast?_concat c4)]
          · rfl
        · rfl
      · unfold matchRefHere
        rw [if_neg hp]

/-! ## Transfer of gap failures to the rewritten continuation -/

theorem boundaryOK_append_eq (A X Y : Str) (hA : A ≠ []) :
    boundaryOK (A ++ X) = boundaryOK (A ++ Y) := by
  cases A with
  | nil => exact absurd rfl hA
  | cons c t => rfl

theorem refText_head (r : Ref) (X : Str) : (r.text ++ X).head? = some '<' := by
  have ho : openTag = '<' :: "ref".data := by decide
  simp [Ref.text, ho]

/-- A position strictly inside a gap of the original scan also fails to
match against any rewritten continuation that starts with `<`: the
failing check is decided before the continuation is reached, and a gap
position that would pass every check against the rewritten continuation
would have matched in the original scan. -/
theorem gapFail_transfer (v : Str) (r : Ref) (Z1 E : Str) (hv : v ≠ [])
    (hgt : ∀ c ∈ r.nameStr, c ≠ '>')
    (hsl : r.nameStr.getLast? ≠ some '/')
    (hE : E.head? = some '<')
    (h : matchRefHere (v ++ (r.text ++ Z1)) = none) :
    matchRefHere (v ++ E) = none := by
  by_cases hlen : v.length < 4
  · have hp := openTag_prefix_short v E hv hlen (Or.inr hE)
    unfold matchRefHere
    rw [hp]
    simp
  · push_neg at hlen
    by_cases hp : openTag.isPrefixOf v = true
    · obtain ⟨v4, hv4⟩ := List.isPrefixOf_iff_prefix.mp hp
      subst hv4
      rw [List.append_assoc] at h ⊢
      unfold matchRefHere at h ⊢
      rw [if_pos (List.isPrefixOf_iff_prefix.mpr ⟨_, rfl⟩)] at h
      rw [if_pos (List.isPrefixOf_iff_prefix.mpr ⟨_, rfl⟩)]
      dsimp only at h ⊢
      have h4 : (4 : Nat) = openTag.length := by decide
      rw [h4, List.drop_left] at h
      rw [h4, List.drop_left]
      by_cases hb2 : boundaryOK (v4 ++ E) = true
      · rw [if_pos hb2]
        have hb1 : boundaryOK (v4 ++ (r.text ++ Z1)) = true := by
          cases v4 with
          | nil =>
            simp only [List.nil_append]
            have hx : r.text ++ Z1 =
                '<' :: ("ref".data ++ r.nameStr ++ '>' :: (r.pay ++ closer ++ Z1)) := by
              have ho : openTag = '<' :: "ref".data := by decide
              simp [Ref.text, ho]
            rw [hx]
            simp [boundaryOK]
            decide
          | cons c t =>
            rw [boundaryOK_append_eq (c :: t) (r.text ++ Z1) E (by simp)]
            exact hb2
        rw [if_pos hb1] at h
        by_cases hgt4 : '>' ∈ v4
        · obtain ⟨w, hw⟩ := dropWhile_ne_break v4 '>' hgt4
          have htA := takeWhile_append_of_break v4 (r.text ++ Z1) '>' hgt4
          have htB := takeWhile_append_of_break v4 E '>' hgt4
          rw [htA.1, htA.2, hw, List.cons_append] at h
          rw [htB.1, htB.2, hw, List.cons_append]
          by_cases hl : (v4.takeWhile (fun c => decide (c ≠ '>'))).getLast? = some '/'
          · split
            · next t2 heq => rw [if_pos hl]
            · rfl
          · exfalso
            split at h
            · next t2 heq =>
              injection heq with h1 h2
              rw [if_neg hl, ← h2] at h
              have hu : w ++ (r.text ++ Z1) =
                  (w ++ (openTag ++ (r.nameStr ++ ('>' :: r.pay)))) ++ closer ++ Z1 := by
                simp [Ref.text]
              rw [hu] at h
              have hsome := splitFirst_isSome closer (by decide)
                (w ++ (openTag ++ (r.nameStr ++ ('>' :: r.pay)))) Z1
              cases hsp : splitFirst closer
                  ((w ++ (openTag ++ (r.nameStr ++ ('>' :: r.pay)))) ++ closer ++ Z1) with
              | none => rw [hsp] at hsome; simp at hsome
              | some p => rw [hsp] at h; simp at h
            · next hne => exact hne (w ++ (r.text ++ Z1)) rfl
        · exfalso
          have hA : ∀ c ∈ (v4 ++ openTag) ++ r.nameStr, c ≠ '>' := by
            intro c hc
            rcases List.mem_append.mp hc with hc | hc
            · rcases List.mem_append.mp hc with hc | hc
              · exact fun he => hgt4 (he ▸ hc)
              · exact openTag_no_gt c hc
            · exact hgt c hc
          have hshape : v4 ++ (r.text ++ Z1) =
              ((v4 ++ openTag) ++ r.nameStr) ++ '>' :: (r.pay ++ (closer ++ Z1)) := by
            simp [Ref.text]
          rw [hshape] at h
          have htw : (((v4 ++ openTag) ++ r.nameStr) ++
              '>' :: (r.pay ++ (closer ++ Z1))).takeWhile
              (fun c => decide (c ≠ '>')) = (v4 ++ openTag) ++ r.nameStr := by
            rw [List.takeWhile_append_of_pos (by intro a ha; simpa using hA a ha)]
            simp [List.takeWhile_cons]
          have hdw : (((v4 ++ openTag) ++ r.nameStr) ++
              '>' :: (r.pay ++ (closer ++ Z1))).dropWhile
              (fun c => decide (c ≠ '>')) = '>' :: (r.pay ++ (closer ++ Z1)) := by
            rw [List.dropWhile_append_of_pos (by intro a ha; simpa using hA a ha)]
            simp [List.dropWhile_cons]
          rw [htw, hdw] at h
          split at h
          · next t2 heq =>
            injection heq with h1 h2
            have hlast : ¬ ((v4 ++ openTag) ++ r.nameStr).getLast? = some '/' := by
              cases hns : r.nameStr with
              | nil =>
                simp only [List.append_nil]
                rw [getLast?_append_right v4 openTag (by decide)]
                decide
              | cons c t =>
                rw [getLast?_append_right (v4 ++ openTag) (c :: t) (by simp)]
                rw [hns] at hsl
                exact hsl
            rw [if_neg hlast, ← h2] at h
            have hsome := splitFirst_isSome closer (by decide) r.pay Z1
            cases hsp : splitFirst closer (r.pay ++ closer ++ Z1) with
            | none => rw [hsp] at hsome; simp at hsome
            | some p =>
              rw [show r.pay ++ (closer ++ Z1) = r.pay ++ closer ++ Z1 from
                (List.append_assoc r.pay closer Z1).symm, hsp] at h
              simp at h
          · next hne => exact hne (r.pay ++ (closer ++ Z1)) rfl
      · rw [if_neg hb2]
    · have hp2 : openTag.isPrefixOf (v ++ E) = false := by
        apply Bool.eq_false_iff.mpr
        intro hc
        exact hp (openTag_prefix_restrict v E hlen hc)
      unfold matchRefHere
      rw [hp2]
      simp

theorem refsOf_cons_of_goodRef (r : Ref) (rest : Str) (h : goodRef r) :
    refsOf (r.text ++ rest) = r :: refsOf rest := by
  have hm := matchRefHere_of_goodRef r rest h
  cases ht : r.text ++ rest with
  | nil =>
    exfalso
    rw [ht] at hm
    have hnone : matchRefHere [] = none := by decide
    rw [hnone] at hm
    simp at hm
  | cons c T =>
    rw [ht] at hm
    have hsr : searchRef (c :: T) = some ([], r, rest) := by
      rw [searchRef, hm]
    exact refsOf_eq_some (c :: T) ([], r, rest) hsr

/-! ## The occurrence list of the rewritten article -/

/-- The ref occurrence the renamed full tag parses back to. -/
def renamedRef (n p : Str) : Ref := ⟨" name=\"".data ++ n ++ ['"'], p⟩

theorem namedTagText_eq (n p : Str) :
    namedTagText n p = (renamedRef n p).text := by
  have h0 : openTag = ['<', 'r', 'e', 'f'] := by decide
  have h1 : "<ref name=\"".data = openTag ++ " name=\"".data := by decide
  have h2 : "\">".data = ['"', '>'] := by decide
  simp [namedTagText, renamedRef, Ref.text, h1, h2, h0]

theorem backrefText_skipIn (n : Str) (hn : '>' ∉ n) (y : Str) :
    SkipIn (backrefText n) y := by
  have h2 : "\" />".data = ['"', ' '] ++ ['/', '>'] := by decide
  have hb : backrefText n = ("<ref name=\"".data ++ n ++ ['"', ' ']) ++ ['/', '>'] := by
    simp [backrefText, h2]
  rw [hb]
  apply skipIn_slash_gt
  intro hc
  rcases List.mem_append.mp hc with hc | hc
  · rcases List.mem_append.mp hc with hc | hc
    · exact absurd hc (by decide)
    · exact hn hc
  · exact absurd hc (by decide)

theorem backrefText_head (n : Str) (X : Str) :
    (backrefText n ++ X).head? = some '<' := by
  have h1 : "<ref name=\"".data = '<' :: "ref name=\"".data := by decide
  simp [backrefText, h1]

theorem goodRef_renamed (n p : Str) (hn : '>' ∉ n) (hp : paySafe p) :
    goodRef (renamedRef n p) := by
  refine ⟨?_, ?_, ?_, hp⟩
  · intro c hc
    simp only [renamedRef] at hc
    rcases List.mem_append.mp hc with hc | hc
    · rcases List.mem_append.mp hc with hc | hc
      · exact fun he => absurd hc (by rw [he]; decide)
      · exact fun he => hn (he ▸ hc)
    · exact fun he => absurd hc (by rw [he]; decide)
  · simp only [renamedRef]
    rw [getLast?_append_right (" name=\"".data ++ n) ['"'] (by simp)]
    decide
  · intro c hc
    simp only [renamedRef] at hc
    have hh : (" name=\"".data ++ n ++ ['"']).head? = some ' ' := by
      have h1 : " name=\"".data = ' ' :: "name=\"".data := by decide
      simp [h1]
    rw [hh] at hc
    injection hc with hc
    rw [← hc]
    decide

theorem get_shortname_no_gt (db : CitationDatabase)
    (Hdb : ∀ v ∈ db.values, '>' ∉ v) (p : Str) :
    '>' ∉ db.get_shortname p := by
  unfold CitationDatabase.get_shortname
  cases hf : db.shortnames.find? (fun e => decide (e.1 = p)) with
  | none => simp
  | some e =>
    have hm := List.mem_of_find?_eq_some hf
    exact Hdb e.2 (List.mem_map_of_mem Prod.snd hm)

/-- The occurrences of the rewritten article, as the rewriting decisions
determine them: unique occurrences and named first duplicates unchanged,
back-references dropped, unnamed first duplicates renamed. -/
def outRefsL (db : CitationDatabase) (dups : List Str) :
    List Ref → List Str → List Ref
  | [], _ => []
  | r :: rs, seen =>
    if r.pay ∉ dups then r :: outRefsL db dups rs seen
    else if r.pay ∈ seen then outRefsL db dups rs seen
    else (if !has_name_attribute r then renamedRef (db.get_shortname r.pay) r.pay
          else r) :: outRefsL db dups rs (seen ++ [r.pay])

/-- Rescanning the rewriter's output: the matches of the rewritten text
are exactly the rewritten occurrences — gaps still match nothing, full
tags still match themselves, and emitted back-references match
nothing. -/
theorem rescan_refs (db : CitationDatabase) (dups : List Str)
    (Hdb : ∀ v ∈ db.values, '>' ∉ v) :
    ∀ (prs : List (Str × Ref)) (last : Str) (seen : List Str),
    ScanShape prs last →
    refsOf (rewriteScan db dups prs last seen).1 =
      outRefsL db dups (prs.map Prod.snd) seen := by
  intro prs
  induction prs with
  | nil =>
    intro last seen hs
    simp only [rewriteScan, List.map_nil, outRefsL]
    exact refsOf_eq_none last hs
  | cons gr rest ih =>
    obtain ⟨g, r⟩ := gr
    intro last seen hs
    obtain ⟨hgood, hgap, hrest⟩ := hs
    rw [rewriteScan, List.map_cons, outRefsL]
    by_cases hd : r.pay ∈ dups
    · rw [if_neg (not_not_intro hd), if_neg (not_not_intro hd)]
      by_cases hseen : r.pay ∈ seen
      · rw [if_pos hseen, if_pos hseen]
        dsimp only
        have hskip1 : SkipIn g (backrefText (db.get_shortname r.pay) ++
            (rewriteScan db dups rest last seen).1) := by
          intro u v huv hvne
          apply gapFail_transfer v r (tailText rest last) _ hvne hgood.1 hgood.2.1
            (backrefText_head _ _)
          rw [← List.append_assoc]
          exact hgap u v huv hvne
        rw [List.append_assoc, refsOf_skip g _ hskip1]
        rw [refsOf_skip _ _ (backrefText_skipIn _ (get_shortname_no_gt db Hdb r.pay) _)]
        exact ih last seen hrest
      · rw [if_neg hseen, if_neg hseen]
        dsimp only
        by_cases hn : has_name_attribute r = true
        · have hemit : (if !has_name_attribute r then
              namedTagText (db.get_shortname r.pay) r.pay else r.text) = r.text := by
            simp [hn]
          have hemit2 : (if !has_name_attribute r then
              renamedRef (db.get_shortname r.pay) r.pay else r) = r := by
            simp [hn]
          rw [hemit, hemit2]
          have hskip1 : SkipIn g (r.text ++
              (rewriteScan db dups rest last (seen ++ [r.pay])).1) := by
            intro u v huv hvne
            apply gapFail_transfer v r (tailText rest last) _ hvne hgood.1 hgood.2.1
              (refText_head r _)
            rw [← List.append_assoc]
            exact hgap u v huv hvne
          rw [List.append_assoc, refsOf_skip g _ hskip1, refsOf_cons_of_goodRef r _ hgood,
            ih last (seen ++ [r.pay]) hrest]
        · have hnf : has_name_attribute r = false := Bool.eq_false_iff.mpr hn
          have hemit : (if !has_name_attribute r then
              namedTagText (db.get_shortname r.pay) r.pay else r.text) =
              (renamedRef (db.get_shortname r.pay) r.pay).text := by
            simp [hnf, namedTagText_eq]
          have hemit2 : (if !has_name_attribute r then
              renamedRef (db.get_shortname r.pay) r.pay else r) =
              renamedRef (db.get_shortname r.pay) r.pay := by
            simp [hnf]
          rw [hemit, hemit2]
          have hskip1 : SkipIn g ((renamedRef (db.get_shortname r.pay) r.pay).text ++
              (rewriteScan db dups rest last (seen ++ [r.pay])).1) := by
            intro u v huv hvne
            apply gapFail_transfer v r (tailText rest last) _ hvne hgood.1 hgood.2.1
              (refText_head _ _)
            rw [← List.append_assoc]
            exact hgap u v huv hvne
          rw [List.append_assoc, refsOf_skip g _ hskip1,
            refsOf_cons_of_goodRef _ _ (goodRef_renamed _ _
              (get_shortname_no_gt db Hdb r.pay) hgood.2.2.2),
            ih last (seen ++ [r.pay]) hrest]
    · rw [if_pos hd, if_pos hd]
      dsimp only
      have hskip1 : SkipIn g (r.text ++ (rewriteScan db dups rest last seen).1) := by
        intro u v huv hvne
        apply gapFail_transfer v r (tailText rest last) _ hvne hgood.1 hgood.2.1
          (refText_head r _)
        rw [← List.append_assoc]
        exact hgap u v huv hvne
      rw [List.append_assoc, refsOf_skip g _ hskip1, refsOf_cons_of_goodRef r _ hgood,
        ih last seen hrest]

/-! ## Characters of generated and captured short-names -/

theorem hexDigit_word (n : Nat) : isWordChar (hexDigit n) = true := by
  have hall : ∀ c ∈ "0123456789abcdef".data, isWordChar c = true := by decide
  unfold hexDigit
  rw [List.getD_eq_getElem?_getD]
  cases h : "0123456789abcdef".data[n]? with
  | none => decide
  | some c =>
    simp only [Option.getD_some]
    exact hall c (List.getElem?_mem h)

theorem md5hex_word (bs : List Nat) : ∀ c ∈ md5hex bs, isWordChar c = true := by
  intro c hc
  unfold md5hex at hc
  simp only [List.mem_flatten, List.mem_map] at hc
  obtain ⟨l, ⟨b, _, hbl⟩, hcl⟩ := hc
  rw [← hbl] at hcl
  simp only [byteHex, List.mem_cons, List.not_mem_nil, or_false] at hcl
  rcases hcl with hcl | hcl
  · rw [hcl]; exact hexDigit_word _
  · rw [hcl]; exact hexDigit_word _

theorem generate_short_name_word (p : Str) :
    ∀ c ∈ generate_short_name p, isWordChar c = true := by
  intro c hc
  unfold generate_short_name at hc
  dsimp only at hc
  rw [List.mem_append] at hc
  rcases hc with hc | hc
  · split at hc
    · split at hc
      · simp only [List.mem_singleton] at hc
        rw [hc]; decide
      · simp at hc
    · simp at hc
  · have hc2 := List.take_subset 11 _ hc
    rw [List.mem_append] at hc2
    rcases hc2 with hc2 | hc2
    · have hc3 := List.take_subset 8 _ hc2
      exact (List.mem_filter.mp hc3).2
    · exact md5hex_word _ c hc2

theorem matchNameAt_subset (s v : Str) (h : matchNameAt s = some v) :
    ∀ c ∈ v, c ∈ s := by
  unfold matchNameAt at h
  split at h
  · dsimp only at h
    split at h
    · next t2 heq =>
      have ht2 : ∀ c ∈ t2, c ∈ s := by
        intro c hc
        have h1 : c ∈ (s.drop 4).dropWhile isSpaceChar := by
          rw [heq]; exact List.mem_cons_of_mem '=' hc
        exact List.drop_subset 4 s ((List.dropWhile_sublist _).subset h1)
      have ht3 : ∀ c ∈ t2.dropWhile isSpaceChar, c ∈ s :=
        fun c hc => ht2 c ((List.dropWhile_sublist _).subset hc)
      split at h
      · next c0 hc0 =>
        have hc0mem : c0 ∈ t2.dropWhile isSpaceChar := by
          cases hl : t2.dropWhile isSpaceChar with
          | nil => rw [hl] at hc0; simp at hc0
          | cons d dt =>
            rw [hl] at hc0
            simp only [List.head?_cons, Option.some.injEq] at hc0
            rw [← hc0]
            exact List.mem_cons_self d dt
        split at h
        · simp only [Option.some.injEq] at h
          subst h
          intro c hc
          exact ht3 c ((List.takeWhile_sublist _).subset hc)
        · split at h
          · next hq =>
            split at h
            · simp only [Option.some.injEq] at h
              subst h
              intro c hc
              rcases List.mem_append.mp hc with hc | hc
              · rcases List.mem_cons.mp hc with hc | hc
                · rw [hc, ← hq]
                  exact ht3 c0 hc0mem
                · have h1 : c ∈ (t2.dropWhile isSpaceChar).drop 1 :=
                    (List.takeWhile_sublist _).subset hc
                  exact ht3 c (List.drop_subset 1 _ h1)
              · simp only [List.mem_singleton] at hc
                rw [hc, ← hq]
                exact ht3 c0 hc0mem
            · simp at h
          · simp at h
      · simp at h
    · simp at h
  · simp at h

theorem searchName_subset (a v : Str) (h : searchName a = some v) :
    ∀ c ∈ v, c ∈ a := by
  induction a with
  | nil => simp [searchName] at h
  | cons c0 t ih =>
    rw [searchName] at h
    split at h
    · next w heq =>
      simp only [Option.some.injEq] at h
      subst h
      exact fun c hc => matchNameAt_subset _ _ heq c hc
    · exact fun c hc => List.mem_cons_of_mem c0 (ih h c hc)

theorem stripQuote_subset (s : Str) : ∀ c ∈ stripQuote s, c ∈ s := by
  intro c hc
  unfold stripQuote at hc
  rw [List.mem_reverse] at hc
  have h2 : c ∈ (s.dropWhile (fun c => c = '"')).reverse :=
    (List.dropWhile_sublist _).subset hc
  rw [List.mem_reverse] at h2
  exact (List.dropWhile_sublist _).subset h2

theorem parsedShortname_no_gt (r : Ref) (h : goodRef r) :
    '>' ∉ parsedShortname r := by
  unfold parsedShortname
  cases hs : searchName r.nameStr with
  | none =>
    intro hc
    exact absurd (generate_short_name_word r.pay '>' hc) (by decide)
  | some v =>
    intro hc
    have h1 := stripQuote_subset v '>' hc
    have h2 := searchName_subset r.nameStr v hs '>' h1
    exact h.1 '>' h2 rfl

theorem scanShape_good : ∀ (prs : List (Str × Ref)) (last : Str),
    ScanShape prs last → ∀ pr ∈ prs, goodRef pr.2 := by
  intro prs
  induction prs with
  | nil => intro last _ pr hpr; simp at hpr
  | cons gr rest ih =>
    intro last hs pr hpr
    obtain ⟨g, r⟩ := gr
    obtain ⟨hgood, _, hrest⟩ := hs
    rcases List.mem_cons.mp hpr with h | h
    · rw [h]; exact hgood
    · exact ih last hrest pr h

theorem refsOf_good (s : Str) : ∀ r ∈ refsOf s, goodRef r := by
  intro r hr
  unfold refsOf at hr
  obtain ⟨pr, hpr, hpr2⟩ := List.mem_map.mp hr
  rw [← hpr2]
  exact scanShape_good (scanRefs s).1 (scanRefs s).2 (scanRefs_shape s) pr hpr

/-! ## Properties of the scanner's registry -/

theorem foldl_assign_values (rs : List Ref) :
    ∀ acc : List (Str × Str),
    ∀ e ∈ rs.foldl (fun acc r =>
        if acc.any (fun e => e.1 = r.pay) then acc
        else acc ++ [(r.pay, parsedShortname r)]) acc,
      e ∈ acc ∨ ∃ r ∈ rs, e = (r.pay, parsedShortname r) := by
  induction rs with
  | nil => intro acc e he; exact Or.inl he
  | cons r rest ih =>
    intro acc e he
    rw [List.foldl_cons] at he
    rcases ih _ e he with h1 | h1
    · split at h1
      · exact Or.inl h1
      · rcases List.mem_append.mp h1 with h2 | h2
        · exact Or.inl h2
        · simp only [List.mem_singleton] at h2
          exact Or.inr ⟨r, List.mem_cons_self r rest, h2⟩
    · obtain ⟨r2, hr2, he2⟩ := h1
      exact Or.inr ⟨r2, List.mem_cons_of_mem r hr2, he2⟩

theorem db_values_no_gt (a : Str) (db : CitationDatabase) (dups : List Str)
    (h : scanRefsList (refsOf a) ⟨[]⟩ [] = some (db, dups)) :
    ∀ v ∈ db.values, '>' ∉ v := by
  intro v hv
  have h1 := (scanRefsList_success (refsOf a) ⟨[]⟩ [] db dups h).1
  unfold CitationDatabase.values at hv
  obtain ⟨e, he, hev⟩ := List.mem_map.mp hv
  rw [h1] at he
  rcases foldl_assign_values (refsOf a) _ e he with h2 | h2
  · simp at h2
  · obtain ⟨r, hr, hre⟩ := h2
    rw [← hev, hre]
    exact parsedShortname_no_gt r (refsOf_good a r hr)

theorem scanRefsList_values_nodup (rs : List Ref) :
    ∀ (db : CitationDatabase) (res : List Str) (db2 : CitationDatabase)
      (dups : List Str),
    scanRefsList rs db res = some (db2, dups) → db.values.Nodup →
    db2.values.Nodup := by
  induction rs with
  | nil =>
    intro db res db2 dups h hn
    simp only [scanRefsList, Option.some.injEq, Prod.mk.injEq] at h
    rw [← h.1]
    exact hn
  | cons r rest ih =>
    intro db res db2 dups h hn
    rw [scanRefsList] at h
    split at h
    · exact ih db _ db2 dups h hn
    · next hhas =>
      have hhasf : db.has r.pay = false := Bool.eq_false_iff.mpr hhas
      cases hadd : db.add r.pay (parsedShortname r) with
      | none => rw [hadd] at h; simp at h
      | some dbx =>
        rw [hadd] at h
        dsimp only at h
        have hfresh : parsedShortname r ∉ db.values := by
          intro hc
          unfold CitationDatabase.add at hadd
          rw [if_pos hc] at hadd
          simp at hadd
        have hdbx := add_fresh_eq db r.pay (parsedShortname r) dbx hhasf hadd
        subst hdbx
        apply ih _ res db2 dups h
        unfold CitationDatabase.values
        simp only [List.map_append, List.map_cons, List.map_nil]
        rw [List.nodup_append]
        refine ⟨hn, by simp, ?_⟩
        intro x hx hx2
        simp only [List.mem_cons, List.not_mem_nil, or_false] at hx2
        rw [hx2] at hx
        exact hfresh hx

/-! ## The registry entry of a first occurrence -/

theorem foldl_assign_ext (rs : List Ref) :
    ∀ (acc : List (Str × Str)) (p : Str),
    acc.any (fun e => e.1 = p) = true →
    ∃ ext, rs.foldl (fun acc r =>
        if acc.any (fun e => e.1 = r.pay) then acc
        else acc ++ [(r.pay, parsedShortname r)]) acc = acc ++ ext ∧
      ∀ e ∈ ext, e.1 ≠ p := by
  induction rs with
  | nil => intro acc p hp; exact ⟨[], by simp, by simp⟩
  | cons r rest ih =>
    intro acc p hp
    rw [List.foldl_cons]
    split
    · exact ih acc p hp
    · next hany =>
      obtain ⟨ext, h1, h2⟩ := ih (acc ++ [(r.pay, parsedShortname r)]) p
        (by rw [List.any_append]; simp [hp])
      refine ⟨(r.pay, parsedShortname r) :: ext, ?_, ?_⟩
      · rw [h1]; simp
      · intro e he
        rcases List.mem_cons.mp he with he | he
        · rw [he]
          dsimp only
          intro hc
          apply hany
          rw [hc]
          exact hp
        · exact h2 e he

theorem firstOcc_get (rs0 : List Ref) (db : CitationDatabase)
    (hdb : db.shortnames = firstOccAssignment rs0) (r : Ref) (l1 l2 : List Ref)
    (hsplit : rs0 = l1 ++ r :: l2) (hfirst : r.pay ∉ l1.map Ref.pay) :
    db.get_shortname r.pay = parsedShortname r ∧ db.has r.pay = true := by
  have hkey1 : ∀ e ∈ l1.foldl (fun acc r =>
      if acc.any (fun e => e.1 = r.pay) then acc
      else acc ++ [(r.pay, parsedShortname r)]) [], e.1 ≠ r.pay := by
    intro e he
    rcases foldl_assign_values l1 [] e he with h1 | h1
    · simp at h1
    · obtain ⟨r1, hr1, he1⟩ := h1
      rw [he1]
      dsimp only
      intro hc
      exact hfirst (hc ▸ List.mem_map_of_mem Ref.pay hr1)
  have hany1 : (l1.foldl (fun acc r =>
      if acc.any (fun e => e.1 = r.pay) then acc
      else acc ++ [(r.pay, parsedShortname r)]) []).any
      (fun e => e.1 = r.pay) = false := by
    apply Bool.eq_false_iff.mpr
    intro hc
    obtain ⟨e, he, hee⟩ := List.any_eq_true.mp hc
    rw [decide_eq_true_eq] at hee
    exact hkey1 e he hee
  have hstep : firstOccAssignment rs0 =
      l2.foldl (fun acc r =>
        if acc.any (fun e => e.1 = r.pay) then acc
        else acc ++ [(r.pay, parsedShortname r)])
        ((l1.foldl (fun acc r =>
          if acc.any (fun e => e.1 = r.pay) then acc
          else acc ++ [(r.pay, parsedShortname r)]) []) ++
         [(r.pay, parsedShortname r)]) := by
    rw [hsplit]
    unfold firstOccAssignment
    rw [List.foldl_append, List.foldl_cons, hany1]
    simp
  obtain ⟨ext, hext1, hext2⟩ := foldl_assign_ext l2
    ((l1.foldl (fun acc r =>
      if acc.any (fun e => e.1 = r.pay) then acc
      else acc ++ [(r.pay, parsedShortname r)]) []) ++
     [(r.pay, parsedShortname r)]) r.pay
    (by rw [List.any_append]; simp)
  have hdb2 : db.shortnames =
      ((l1.foldl (fun acc r =>
        if acc.any (fun e => e.1 = r.pay) then acc
        else acc ++ [(r.pay, parsedShortname r)]) []) ++
       [(r.pay, parsedShortname r)]) ++ ext := by
    rw [hdb, hstep, hext1]
  have hfind : db.shortnames.find? (fun e => decide (e.1 = r.pay)) =
      some (r.pay, parsedShortname r) := by
    rw [hdb2, List.find?_append, find?_append_fresh _ _ _ hany1]
    rfl
  constructor
  · unfold CitationDatabase.get_shortname
    rw [hfind]
  · unfold CitationDatabase.has
    apply List.any_eq_true.mpr
    exact ⟨(r.pay, parsedShortname r), by rw [hdb2]; simp, by simp⟩

/-! ## Parsing the renamed tag's name attribute -/

theorem matchNameAt_quoted (n : Str) (hq : '"' ∉ n) :
    matchNameAt ("name=\"".data ++ n ++ ['"']) = some ('"' :: (n ++ ['"'])) := by
  have hsplit : "name=\"".data ++ n ++ ['"'] =
      "name".data ++ ('=' :: '"' :: (n ++ ['"'])) := by
    have h1 : "name=\"".data = "name".data ++ ['=', '"'] := by decide
    simp [h1]
  unfold matchNameAt
  rw [if_pos (by rw [hsplit]; exact List.isPrefixOf_iff_prefix.mpr ⟨_, rfl⟩)]
  dsimp only
  have hdrop : ("name=\"".data ++ n ++ ['"']).drop 4 = '=' :: '"' :: (n ++ ['"']) := by
    rw [hsplit]
    have h4 : (4 : Nat) = ("name".data).length := by decide
    rw [h4, List.drop_left]
  rw [hdrop]
  have hds : ('=' :: '"' :: (n ++ ['"'])).dropWhile isSpaceChar =
      '=' :: '"' :: (n ++ ['"']) := by
    rw [List.dropWhile_cons]
    have h5 : isSpaceChar '=' = false := by decide
    rw [h5]
    simp
  rw [hds]
  split
  · next t2 heq =>
    injection heq with h1 h2
    rw [← h2]
    have hds2 : ('"' :: (n ++ ['"'])).dropWhile isSpaceChar =
        '"' :: (n ++ ['"']) := by
      rw [List.dropWhile_cons]
      have h5 : isSpaceChar '"' = false := by decide
      rw [h5]
      simp
    rw [hds2, List.head?_cons]
    split
    · next c0 heq2 =>
      injection heq2 with h3
      subst h3
      rw [if_neg (by decide), if_pos rfl]
      have hd1 : ('"' :: (n ++ ['"'])).drop 1 = n ++ ['"'] := rfl
      rw [hd1]
      have htk : (n ++ ['"']).takeWhile (fun d => decide (d ≠ '"')) = n := by
        rw [List.takeWhile_append_of_pos (by
          intro a ha
          simp only [ne_eq, decide_eq_true_eq]
          exact fun he => hq (he ▸ ha))]
        simp [List.takeWhile_cons]
      rw [htk]
      rw [if_pos (by simp)]
      simp
    · next heq2 => simp at heq2
  · next hne => exact absurd rfl (hne ('"' :: (n ++ ['"'])))

theorem searchName_renamed (n : Str) (hq : '"' ∉ n) :
    searchName (" name=\"".data ++ n ++ ['"']) = some ('"' :: (n ++ ['"'])) := by
  have hsp : " name=\"".data ++ n ++ ['"'] =
      ' ' :: ("name=\"".data ++ n ++ ['"']) := by
    have h1 : " name=\"".data = ' ' :: "name=\"".data := by decide
    simp [h1]
  rw [hsp, searchName]
  have hno : matchNameAt (' ' :: ("name=\"".data ++ n ++ ['"'])) = none := by
    unfold matchNameAt
    rw [if_neg]
    intro hc
    obtain ⟨t, ht⟩ := List.isPrefixOf_iff_prefix.mp hc
    have h2 : "name".data = 'n' :: "ame".data := by decide
    rw [h2, List.cons_append] at ht
    injection ht with h3 h4
    exact absurd h3 (by decide)
  rw [hno]
  show searchName ("name=\"".data ++ n ++ ['"']) = some ('"' :: (n ++ ['"']))
  have hcons : "name=\"".data ++ n ++ ['"'] =
      'n' :: ("ame=\"".data ++ n ++ ['"']) := by
    have h1 : "name=\"".data = 'n' :: "ame=\"".data := by decide
    simp [h1]
  rw [hcons, searchName]
  have hsome : matchNameAt ('n' :: ("ame=\"".data ++ n ++ ['"'])) =
      some ('"' :: (n ++ ['"'])) := by
    rw [← hcons]
    exact matchNameAt_quoted n hq
  rw [hsome]

theorem stripQuote_quoted (n : Str) (hq : '"' ∉ n) :
    stripQuote ('"' :: (n ++ ['"'])) = n := by
  cases n with
  | nil => decide
  | cons c t =>
    have hc : (decide (c = '"')) = false := by
      apply decide_eq_false
      intro he
      exact hq (he ▸ List.mem_cons_self c t)
    have hmem : ∀ x ∈ c :: t, (decide (x = '"')) = false := by
      intro x hx
      apply decide_eq_false
      intro he
      exact hq (he ▸ hx)
    unfold stripQuote
    have h1 : ('"' :: (c :: t ++ ['"'])).dropWhile (fun c => decide (c = '"')) =
        c :: (t ++ ['"']) := by
      rw [List.dropWhile_cons]
      have h0 : (decide (('"' : Char) = '"')) = true := by decide
      rw [h0]
      simp only [if_true]
      rw [List.cons_append, List.dropWhile_cons, hc]
      simp
    rw [h1]
    have h2 : (c :: (t ++ ['"'])).reverse = '"' :: (t.reverse ++ [c]) := by
      simp
    rw [h2]
    have h3 : ('"' :: (t.reverse ++ [c])).dropWhile (fun c => decide (c = '"')) =
        t.reverse ++ [c] := by
      rw [List.dropWhile_cons]
      have h0 : (decide (('"' : Char) = '"')) = true := by decide
      rw [h0, if_pos rfl]
      cases hrev : t.reverse with
      | nil =>
        simp only [List.nil_append, List.dropWhile_cons, hc]
        simp
      | cons d dt =>
        have hd : d ∈ c :: t := by
          have hd2 : d ∈ t.reverse := by rw [hrev]; exact List.mem_cons_self d dt
          exact List.mem_cons_of_mem c (List.mem_reverse.mp hd2)
        rw [List.cons_append, List.dropWhile_cons, hmem d hd]
        simp
    rw [h3]
    simp

theorem parsedShortname_renamed (n p : Str) (hq : '"' ∉ n) :
    parsedShortname (renamedRef n p) = n := by
  unfold parsedShortname
  rw [show (renamedRef n p).nameStr = " name=\"".data ++ n ++ ['"'] from rfl]
  rw [searchName_renamed n hq]
  exact stripQuote_quoted n hq

theorem parsedShortname_unnamed (r : Ref) (h : has_name_attribute r = false) :
    parsedShortname r = generate_short_name r.pay := by
  unfold parsedShortname
  unfold has_name_attribute at h
  cases hs : searchName r.nameStr with
  | none => rfl
  | some v => rw [hs] at h; simp at h

theorem generate_short_name_no_quote (p : Str) : '"' ∉ generate_short_name p :=
  fun h => absurd (generate_short_name_word p '"' h) (by decide)

/-! ## Payloads and short-names of the rewritten occurrence list -/

theorem outRefsL_pay_mem (db : CitationDatabase) (dups : List Str) :
    ∀ (rs : List Ref) (seen : List Str) (r' : Ref),
    r' ∈ outRefsL db dups rs seen → r'.pay ∈ rs.map Ref.pay := by
  intro rs
  induction rs with
  | nil => intro seen r' h; simp [outRefsL] at h
  | cons r rest ih =>
    intro seen r' h
    rw [outRefsL] at h
    rw [List.map_cons]
    split at h
    · rcases List.mem_cons.mp h with h | h
      · rw [h]; exact List.mem_cons_self _ _
      · exact List.mem_cons_of_mem _ (ih seen r' h)
    · split at h
      · exact List.mem_cons_of_mem _ (ih seen r' h)
      · rcases List.mem_cons.mp h with h | h
        · rw [h]
          have hpay : (if !has_name_attribute r then
              renamedRef (db.get_shortname r.pay) r.pay else r).pay = r.pay := by
            split
            · rfl
            · rfl
          rw [hpay]
          exact List.mem_cons_self _ _
        · exact List.mem_cons_of_mem _ (ih (seen ++ [r.pay]) r' h)

theorem outRefsL_pay_skip (db : CitationDatabase) (dups : List Str) :
    ∀ (rs : List Ref) (seen : List Str) (p : Str), p ∈ dups → p ∈ seen →
    ∀ r' ∈ outRefsL db dups rs seen, r'.pay ≠ p := by
  intro rs
  induction rs with
  | nil => intro seen p hd hs r' h; simp [outRefsL] at h
  | cons r rest ih =>
    intro seen p hd hs r' h
    rw [outRefsL] at h
    split at h
    · next hnd =>
      rcases List.mem_cons.mp h with h | h
      · rw [h]; intro hc; exact hnd (hc ▸ hd)
      · exact ih seen p hd hs r' h
    · split at h
      · exact ih seen p hd hs r' h
      · next hnseen =>
        rcases List.mem_cons.mp h with h | h
        · rw [h]
          intro hc
          have hrp : r.pay = p := by
            revert hc
            split
            · exact fun hc => hc
            · exact fun hc => hc
          exact hnseen (hrp ▸ hs)
        · exact ih (seen ++ [r.pay]) p hd (List.mem_append_left _ hs) r' h

theorem outRefsL_pay_nodup (db : CitationDatabase) (dups : List Str) :
    ∀ (rs : List Ref) (seen : List Str),
    (∀ p, 2 ≤ (rs.map Ref.pay).count p → p ∈ dups) →
    ((outRefsL db dups rs seen).map Ref.pay).Nodup := by
  intro rs
  induction rs with
  | nil => intro seen _; simp [outRefsL]
  | cons r rest ih =>
    intro seen hdup
    rw [outRefsL]
    have hdup2 : ∀ p, 2 ≤ (rest.map Ref.pay).count p → p ∈ dups := by
      intro p hp
      apply hdup p
      rw [List.map_cons, List.count_cons]
      omega
    split
    · next hnd =>
      rw [List.map_cons, List.nodup_cons]
      refine ⟨?_, ih seen hdup2⟩
      intro hc
      obtain ⟨r2, hr2, hr2p⟩ := List.mem_map.mp hc
      have h1 : r.pay ∈ rest.map Ref.pay := by
        rw [← hr2p]
        exact outRefsL_pay_mem db dups rest seen r2 hr2
      apply hnd
      apply hdup r.pay
      rw [List.map_cons, List.count_cons_self]
      have h2 := List.count_pos_iff.mpr h1
      omega
    · next hd2 =>
      have hd : r.pay ∈ dups := not_not.mp hd2
      split
      · exact ih seen hdup2
      · next hnseen =>
        rw [List.map_cons, List.nodup_cons]
        have hpay : (if !has_name_attribute r then
            renamedRef (db.get_shortname r.pay) r.pay else r).pay = r.pay := by
          split
          · rfl
          · rfl
        rw [hpay]
        refine ⟨?_, ih (seen ++ [r.pay]) hdup2⟩
        intro hc
        obtain ⟨r2, hr2, hr2p⟩ := List.mem_map.mp hc
        exact outRefsL_pay_skip db dups rest (seen ++ [r.pay]) r.pay hd
          (List.mem_append_right _ (List.mem_singleton.mpr rfl)) r2 hr2 hr2p

theorem carriedName_named (r : Ref) (h : has_name_attribute r = true) :
    carriedName r = some (parsedShortname r) := by
  unfold has_name_attribute at h
  unfold carriedName parsedShortname
  cases hs : searchName r.nameStr with
  | none => rw [hs] at h; simp at h
  | some v => rfl

theorem carriedName_renamed (n p : Str) (hq : '"' ∉ n) :
    carriedName (renamedRef n p) = some n := by
  unfold carriedName
  rw [show (renamedRef n p).nameStr = " name=\"".data ++ n ++ ['"'] from rfl,
    searchName_renamed n hq]
  simp only [Option.map_some']
  rw [stripQuote_quoted n hq]

theorem carriedName_parsed (r : Ref) (x : Str) (h : carriedName r = some x) :
    parsedShortname r = x := by
  unfold carriedName at h
  unfold parsedShortname
  cases hs : searchName r.nameStr with
  | none => rw [hs] at h; simp at h
  | some v =>
    rw [hs] at h
    simp only [Option.map_some', Option.some.injEq] at h
    exact h

/-- Every occurrence of the rewritten article already carries, as its
parsed short-name, exactly the registry's short-name for its payload. -/
theorem outRefsL_shortnames (db : CitationDatabase) (dups : List Str)
    (rs0 : List Ref)
    (HF : ∀ (r : Ref) (l1 l2 : List Ref), rs0 = l1 ++ r :: l2 →
      r.pay ∉ l1.map Ref.pay →
      db.get_shortname r.pay = parsedShortname r ∧ db.has r.pay = true)
    (hdup : ∀ p, 2 ≤ (rs0.map Ref.pay).count p → p ∈ dups) :
    ∀ (rs done : List Ref) (seen : List Str), rs0 = done ++ rs →
    (∀ p, p ∈ seen ↔ (p ∈ dups ∧ p ∈ done.map Ref.pay)) →
    ∀ r' ∈ outRefsL db dups rs seen,
      parsedShortname r' = db.get_shortname r'.pay ∧ db.has r'.pay = true ∧
      (r'.pay ∈ dups → carriedName r' = some (db.get_shortname r'.pay)) := by
  intro rs
  induction rs with
  | nil => intro done seen _ _ r' h; simp [outRefsL] at h
  | cons r rest ih =>
    intro done seen hsplit hseen r' h
    rw [outRefsL] at h
    have hcount : r.pay ∈ done.map Ref.pay → r.pay ∈ dups := by
      intro hmem
      apply hdup
      rw [hsplit, List.map_append, List.count_append, List.map_cons,
        List.count_cons_self]
      have h2 := List.count_pos_iff.mpr hmem
      omega
    have hsplit2 : rs0 = (done ++ [r]) ++ rest := by
      rw [hsplit]; simp
    split at h
    · next hnd =>
      have hdone : r.pay ∉ done.map Ref.pay := fun hm => hnd (hcount hm)
      rcases List.mem_cons.mp h with h | h
      · rw [h]
        have hHF := HF r done rest hsplit hdone
        exact ⟨hHF.1.symm, hHF.2, fun hdp => absurd hdp hnd⟩
      · apply ih (done ++ [r]) seen hsplit2 ?_ r' h
        intro p
        rw [hseen p]
        constructor
        · rintro ⟨h1, h2⟩
          exact ⟨h1, by rw [List.map_append]; exact List.mem_append_left _ h2⟩
        · rintro ⟨h1, h2⟩
          refine ⟨h1, ?_⟩
          rw [List.map_append] at h2
          rcases List.mem_append.mp h2 with h2 | h2
          · exact h2
          · simp only [List.map_cons, List.map_nil, List.mem_singleton] at h2
            exact absurd (h2 ▸ h1) hnd
    · next hd2 =>
      have hd : r.pay ∈ dups := not_not.mp hd2
      split at h
      · next hsn =>
        apply ih (done ++ [r]) seen hsplit2 ?_ r' h
        intro p
        rw [hseen p]
        constructor
        · rintro ⟨h1, h2⟩
          exact ⟨h1, by rw [List.map_append]; exact List.mem_append_left _ h2⟩
        · rintro ⟨h1, h2⟩
          refine ⟨h1, ?_⟩
          rw [List.map_append] at h2
          rcases List.mem_append.mp h2 with h2 | h2
          · exact h2
          · simp only [List.map_cons, List.map_nil, List.mem_singleton] at h2
            exact h2 ▸ ((hseen r.pay).mp hsn).2
      · next hsn =>
        have hdone : r.pay ∉ done.map Ref.pay := by
          intro hm
          exact hsn ((hseen r.pay).mpr ⟨hd, hm⟩)
        rcases List.mem_cons.mp h with h | h
        · rw [h]
          have hHF := HF r done rest hsplit hdone
          split
          · next hun =>
            have hnf : has_name_attribute r = false := by
              revert hun
              cases has_name_attribute r
              · intro _; rfl
              · intro hx; simp at hx
            have hgen : db.get_shortname r.pay = generate_short_name r.pay := by
              rw [hHF.1, parsedShortname_unnamed r hnf]
            have hqn : '"' ∉ db.get_shortname r.pay := by
              rw [hgen]; exact generate_short_name_no_quote r.pay
            refine ⟨?_, hHF.2, ?_⟩
            · rw [parsedShortname_renamed _ _ hqn]
              rfl
            · intro _
              rw [carriedName_renamed _ _ hqn]
              rfl
          · next hun =>
            have hnt : has_name_attribute r = true := by
              revert hun
              cases has_name_attribute r
              · intro hx; exact absurd rfl hx
              · intro _; rfl
            refine ⟨hHF.1.symm, hHF.2, ?_⟩
            intro _
            rw [carriedName_named r hnt, hHF.1]
        · apply ih (done ++ [r]) (seen ++ [r.pay]) hsplit2 ?_ r' h
          intro p
          constructor
          · intro hp
            rcases List.mem_append.mp hp with hp | hp
            · obtain ⟨h1, h2⟩ := (hseen p).mp hp
              exact ⟨h1, by rw [List.map_append]; exact List.mem_append_left _ h2⟩
            · simp only [List.mem_singleton] at hp
              subst hp
              exact ⟨hd, by rw [List.map_append]; simp⟩
          · rintro ⟨h1, h2⟩
            rw [List.map_append] at h2
            rcases List.mem_append.mp h2 with h2 | h2
            · exact List.mem_append_left _ ((hseen p).mpr ⟨h1, h2⟩)
            · simp only [List.map_cons, List.map_nil, List.mem_singleton] at h2
              subst h2
              exact List.mem_append_right _ (List.mem_singleton.mpr rfl)

theorem get_shortname_injOn (db : CitationDatabase) (hv : db.values.Nodup)
    (p1 p2 : Str) (h1 : db.has p1 = true) (h2 : db.has p2 = true)
    (heq : db.get_shortname p1 = db.get_shortname p2) : p1 = p2 := by
  unfold CitationDatabase.has at h1 h2
  obtain ⟨e1, he1, hp1⟩ := List.any_eq_true.mp h1
  obtain ⟨e2, he2, hp2⟩ := List.any_eq_true.mp h2
  rw [decide_eq_true_eq] at hp1 hp2
  unfold CitationDatabase.get_shortname at heq
  unfold CitationDatabase.values at hv
  cases hf1 : db.shortnames.find? (fun e => decide (e.1 = p1)) with
  | none =>
    rw [List.find?_eq_none] at hf1
    exact absurd (by rw [hp1]; simp : (decide (e1.1 = p1)) = true)
      (by simpa using hf1 e1 he1)
  | some f1 =>
    cases hf2 : db.shortnames.find? (fun e => decide (e.1 = p2)) with
    | none =>
      rw [List.find?_eq_none] at hf2
      exact absurd (by rw [hp2]; simp : (decide (e2.1 = p2)) = true)
        (by simpa using hf2 e2 he2)
    | some f2 =>
      rw [hf1, hf2] at heq
      dsimp only at heq
      have hm1 := List.mem_of_find?_eq_some hf1
      have hm2 := List.mem_of_find?_eq_some hf2
      have hk1 : f1.1 = p1 := by
        have hs := List.find?_some hf1
        rwa [decide_eq_true_eq] at hs
      have hk2 : f2.1 = p2 := by
        have hs := List.find?_some hf2
        rwa [decide_eq_true_eq] at hs
      have hff : f1 = f2 := List.inj_on_of_nodup_map hv hm1 hm2 heq
      rw [← hk1, ← hk2, hff]

/-- C1: when `merge` succeeds on an article, running `merge` again on the
returned text is a no-op: the rewritten text is returned byte-for-byte
unchanged, the merge count is 0, and the duplicated-payloads list is
empty — and in particular the second run does not abort. -/
theorem C1_merge_idempotent (a out : Str) (cnt : Nat) (dups : List Str)
    (h : merge a = some (out, cnt, dups)) :
    merge out = some (out, 0, []) := by
  unfold merge at h
  cases hgd : get_duplicated_refs a ⟨[]⟩ with
  | none => rw [hgd] at h; simp at h
  | some gd =>
    rw [hgd] at h
    dsimp only at h
    simp only [Option.some.injEq, Prod.mk.injEq] at h
    obtain ⟨hout, hcnt, hdups⟩ := h
    have hscan : scanRefsList (refsOf a) ⟨[]⟩ [] = some (gd.1, gd.2) := by
      have hx := hgd
      unfold get_duplicated_refs at hx
      rw [get_duplicated_refs_go_list] at hx
      exact hx
    have hfold : gd.1.shortnames = firstOccAssignment (refsOf a) :=
      (scanRefsList_success (refsOf a) ⟨[]⟩ [] gd.1 gd.2 hscan).1
    have hdupiff := (scanRefsList_success (refsOf a) ⟨[]⟩ [] gd.1 gd.2 hscan).2
    have hdupc : ∀ p, 2 ≤ ((refsOf a).map Ref.pay).count p → p ∈ gd.2 := by
      intro p hp
      exact (hdupiff p).mpr (Or.inr (Or.inr hp))
    have HF : ∀ (r : Ref) (l1 l2 : List Ref), refsOf a = l1 ++ r :: l2 →
        r.pay ∉ l1.map Ref.pay →
        gd.1.get_shortname r.pay = parsedShortname r ∧ gd.1.has r.pay = true :=
      fun r l1 l2 hs hf => firstOcc_get (refsOf a) gd.1 hfold r l1 l2 hs hf
    have Hdb : ∀ v ∈ gd.1.values, '>' ∉ v := db_values_no_gt a gd.1 gd.2 hscan
    have hrefs_out : refsOf out = outRefsL gd.1 gd.2 (refsOf a) [] := by
      rw [← hout, merge_go_scan a gd.1 gd.2 []]
      exact rescan_refs gd.1 gd.2 Hdb (scanRefs a).1 (scanRefs a).2 []
        (scanRefs_shape a)
    have hpnodup : ((outRefsL gd.1 gd.2 (refsOf a) []).map Ref.pay).Nodup :=
      outRefsL_pay_nodup gd.1 gd.2 (refsOf a) [] hdupc
    have hsn : ∀ r' ∈ outRefsL gd.1 gd.2 (refsOf a) [],
        parsedShortname r' = gd.1.get_shortname r'.pay ∧ gd.1.has r'.pay = true ∧
        (r'.pay ∈ gd.2 → carriedName r' = some (gd.1.get_shortname r'.pay)) :=
      outRefsL_shortnames gd.1 gd.2 (refsOf a) HF hdupc (refsOf a) [] [] (by simp)
        (by intro p; simp)
    have hvnodup : gd.1.values.Nodup :=
      scanRefsList_values_nodup (refsOf a) ⟨[]⟩ [] gd.1 gd.2 hscan
        (by simp [CitationDatabase.values])
    have hsnodup : ((outRefsL gd.1 gd.2 (refsOf a) []).map parsedShortname).Nodup := by
      have hmapeq : (outRefsL gd.1 gd.2 (refsOf a) []).map parsedShortname =
          ((outRefsL gd.1 gd.2 (refsOf a) []).map Ref.pay).map
            (fun p => gd.1.get_shortname p) := by
        rw [List.map_map]
        apply List.map_congr_left
        intro r' hr'
        exact (hsn r' hr').1
      rw [hmapeq]
      apply List.Nodup.map_on ?_ hpnodup
      intro x hx y hy hxy
      obtain ⟨rx, hrx, hrxp⟩ := List.mem_map.mp hx
      obtain ⟨ry, hry, hryp⟩ := List.mem_map.mp hy
      have hhx : gd.1.has x = true := hrxp ▸ (hsn rx hrx).2.1
      have hhy : gd.1.has y = true := hryp ▸ (hsn ry hry).2.1
      exact get_shortname_injOn gd.1 hvnodup x y hhx hhy hxy
    obtain ⟨db2, hgd2⟩ : ∃ db2, get_duplicated_refs out ⟨[]⟩ = some (db2, []) := by
      refine ⟨⟨(outRefsL gd.1 gd.2 (refsOf a) []).map
        (fun r => (r.pay, parsedShortname r))⟩, ?_⟩
      unfold get_duplicated_refs
      rw [get_duplicated_refs_go_list, hrefs_out]
      exact scanRefsList_nodup_success (outRefsL gd.1 gd.2 (refsOf a) []) ⟨[]⟩ []
        hpnodup (by intro r _; simp [CitationDatabase.has]) hsnodup
        (by intro r _; simp [CitationDatabase.values])
    unfold merge
    rw [hgd2]
    dsimp only
    have hmg2 : merge_go out db2 [] [] = (out, 0) := by
      rw [merge_go_scan, rewriteScan_no_dups, scanRefs_join out]
    rw [hmg2]

/-- Closed instance of the C1 theorem: the merged form of
`<ref>a</ref><ref>a</ref>` is a fixed point of `merge`. -/
theorem C1_witness :
    merge ("<ref>a</ref><ref>a</ref>".data) =
      some ("<ref name=\"a0cc175b9c0\">a</ref><ref name=\"a0cc175b9c0\" />".data,
        1, ["a".data]) ∧
    merge ("<ref name=\"a0cc175b9c0\">a</ref><ref name=\"a0cc175b9c0\" />".data) =
      some ("<ref name=\"a0cc175b9c0\">a</ref><ref name=\"a0cc175b9c0\" />".data,
        0, []) :=
  ⟨by decide,
   C1_merge_idempotent ("<ref>a</ref><ref>a</ref>".data) _ 1 ["a".data] (by decide)⟩

/-! ## The back-references the rewriter emits -/

/-- The payloads of the back-references the rewriter emits, one entry per
dropped duplicate occurrence, in document order. -/
def outBackrefPays (dups : List Str) : List Ref → List Str → List Str
  | [], _ => []
  | r :: rs, seen =>
    if r.pay ∉ dups then outBackrefPays dups rs seen
    else if r.pay ∈ seen then r.pay :: outBackrefPays dups rs seen
    else outBackrefPays dups rs (seen ++ [r.pay])

theorem outBackrefPays_mem_dups (dups : List Str) :
    ∀ (rs : List Ref) (seen : List Str) (p : Str),
    p ∈ outBackrefPays dups rs seen → p ∈ dups := by
  intro rs
  induction rs with
  | nil => intro seen p h; simp [outBackrefPays] at h
  | cons r rest ih =>
    intro seen p h
    rw [outBackrefPays] at h
    split at h
    · exact ih seen p h
    · next hd2 =>
      split at h
      · rcases List.mem_cons.mp h with h | h
        · rw [h]; exact not_not.mp hd2
        · exact ih seen p h
      · exact ih (seen ++ [r.pay]) p h

theorem outBackref_defined (db : CitationDatabase) (dups : List Str) :
    ∀ (rs : List Ref) (seen : List Str) (p : Str),
    p ∈ outBackrefPays dups rs seen →
    p ∈ seen ∨ p ∈ (outRefsL db dups rs seen).map Ref.pay := by
  intro rs
  induction rs with
  | nil => intro seen p h; simp [outBackrefPays] at h
  | cons r rest ih =>
    intro seen p h
    rw [outBackrefPays] at h
    rw [outRefsL]
    by_cases hd : r.pay ∈ dups
    · rw [if_neg (not_not_intro hd)] at h ⊢
      by_cases hs2 : r.pay ∈ seen
      · rw [if_pos hs2] at h ⊢
        rcases List.mem_cons.mp h with h | h
        · exact Or.inl (h ▸ hs2)
        · rcases ih seen p h with h1 | h1
          · exact Or.inl h1
          · exact Or.inr h1
      · rw [if_neg hs2] at h ⊢
        have hpay : (if !has_name_attribute r then
            renamedRef (db.get_shortname r.pay) r.pay else r).pay = r.pay := by
          split
          · rfl
          · rfl
        rcases ih (seen ++ [r.pay]) p h with h1 | h1
        · rcases List.mem_append.mp h1 with h1 | h1
          · exact Or.inl h1
          · simp only [List.mem_singleton] at h1
            right
            rw [List.map_cons, hpay]
            exact List.mem_cons.mpr (Or.inl h1)
        · right
          rw [List.map_cons]
          exact List.mem_cons_of_mem _ h1
    · rw [if_pos hd] at h ⊢
      rcases ih seen p h with h1 | h1
      · exact Or.inl h1
      · right
        rw [List.map_cons]
        exact List.mem_cons_of_mem _ h1

theorem outRefsL_pays_perm (db : CitationDatabase) (dups : List Str) :
    ∀ (rs : List Ref) (seen : List Str),
    (rs.map Ref.pay).Perm
      ((outRefsL db dups rs seen).map Ref.pay ++ outBackrefPays dups rs seen) := by
  intro rs
  induction rs with
  | nil => intro seen; simp [outRefsL, outBackrefPays]
  | cons r rest ih =>
    intro seen
    rw [List.map_cons, outRefsL, outBackrefPays]
    by_cases hd : r.pay ∈ dups
    · rw [if_neg (not_not_intro hd), if_neg (not_not_intro hd)]
      by_cases hs2 : r.pay ∈ seen
      · rw [if_pos hs2, if_pos hs2]
        exact ((ih seen).cons r.pay).trans List.perm_middle.symm
      · rw [if_neg hs2, if_neg hs2]
        rw [List.map_cons, List.cons_append]
        have hpay : (if !has_name_attribute r then
            renamedRef (db.get_shortname r.pay) r.pay else r).pay = r.pay := by
          split
          · rfl
          · rfl
        rw [hpay]
        exact (ih (seen ++ [r.pay])).cons r.pay
    · rw [if_pos hd, if_pos hd]
      rw [List.map_cons, List.cons_append]
      exact (ih seen).cons r.pay

theorem exists_first_occ (rs : List Ref) (p : Str) (h : p ∈ rs.map Ref.pay) :
    ∃ l1 r l2, rs = l1 ++ r :: l2 ∧ r.pay = p ∧ p ∉ l1.map Ref.pay := by
  induction rs with
  | nil => simp at h
  | cons r0 rest ih =>
    by_cases hp : r0.pay = p
    · exact ⟨[], r0, rest, by simp, hp, by simp⟩
    · have h2 : p ∈ rest.map Ref.pay := by
        rw [List.map_cons, List.mem_cons] at h
        rcases h with h | h
        · exact absurd h.symm hp
        · exact h
      obtain ⟨l1, r, l2, hs, hrp, hnp⟩ := ih h2
      refine ⟨r0 :: l1, r, l2, by rw [hs]; rfl, hrp, ?_⟩
      rw [List.map_cons, List.mem_cons]
      rintro (h3 | h3)
      · exact hp h3.symm
      · exact hnp h3

/-- C2 (amended): for every article on which `merge` succeeds, the
multiset of original payloads equals the payloads of the rewritten
article's matched full tags plus one payload per emitted back-reference;
and every emitted back-reference's short-name resolves, in the rewritten
article, to exactly the payload that was dropped.  (The original claim,
which resolves every self-closing tag of the output, fails because
self-closing back-references already present in the source text also
resolve and are counted; see the counterexample.) -/
theorem C2_amended_content_preservation (a out : Str) (cnt : Nat)
    (dups : List Str) (db : CitationDatabase) (dups0 : List Str)
    (hgd : get_duplicated_refs a ⟨[]⟩ = some (db, dups0))
    (h : merge a = some (out, cnt, dups)) :
    (payloadsOf a : Multiset Str) =
      (payloadsOf out : Multiset Str) +
      (outBackrefPays dups (refsOf a) [] : Multiset Str) ∧
    ∀ p ∈ outBackrefPays dups (refsOf a) [],
      resolvePayload out (db.get_shortname p) = some p := by
  unfold merge at h
  rw [hgd] at h
  dsimp only at h
  simp only [Option.some.injEq, Prod.mk.injEq] at h
  obtain ⟨hout, hcnt, hdups⟩ := h
  subst hdups
  have hscan : scanRefsList (refsOf a) ⟨[]⟩ [] = some (db, dups0) := by
    have hx := hgd
    unfold get_duplicated_refs at hx
    rw [get_duplicated_refs_go_list] at hx
    exact hx
  have hfold : db.shortnames = firstOccAssignment (refsOf a) :=
    (scanRefsList_success (refsOf a) ⟨[]⟩ [] db dups0 hscan).1
  have hdupc : ∀ p, 2 ≤ ((refsOf a).map Ref.pay).count p → p ∈ dups0 := by
    intro p hp
    exact ((scanRefsList_success (refsOf a) ⟨[]⟩ [] db dups0 hscan).2 p).mpr
      (Or.inr (Or.inr hp))
  have HF : ∀ (r : Ref) (l1 l2 : List Ref), refsOf a = l1 ++ r :: l2 →
      r.pay ∉ l1.map Ref.pay →
      db.get_shortname r.pay = parsedShortname r ∧ db.has r.pay = true :=
    fun r l1 l2 hs hf => firstOcc_get (refsOf a) db hfold r l1 l2 hs hf
  have Hdb : ∀ v ∈ db.values, '>' ∉ v := db_values_no_gt a db dups0 hscan
  have hrefs_out : refsOf out = outRefsL db dups0 (refsOf a) [] := by
    rw [← hout, merge_go_scan a db dups0 []]
    exact rescan_refs db dups0 Hdb (scanRefs a).1 (scanRefs a).2 []
      (scanRefs_shape a)
  have hsn : ∀ r' ∈ outRefsL db dups0 (refsOf a) [],
      parsedShortname r' = db.get_shortname r'.pay ∧ db.has r'.pay = true ∧
      (r'.pay ∈ dups0 → carriedName r' = some (db.get_shortname r'.pay)) :=
    outRefsL_shortnames db dups0 (refsOf a) HF hdupc (refsOf a) [] [] (by simp)
      (by intro p; simp)
  have hvnodup : db.values.Nodup :=
    scanRefsList_values_nodup (refsOf a) ⟨[]⟩ [] db dups0 hscan
      (by simp [CitationDatabase.values])
  constructor
  · have hperm := outRefsL_pays_perm db dups0 (refsOf a) []
    have hpo : payloadsOf out = (outRefsL db dups0 (refsOf a) []).map Ref.pay := by
      unfold payloadsOf
      rw [hrefs_out]
    rw [hpo, Multiset.coe_add, Multiset.coe_eq_coe]
    exact hperm
  · intro p hp
    have hdp : p ∈ dups0 := outBackrefPays_mem_dups dups0 (refsOf a) [] p hp
    rcases outBackref_defined db dups0 (refsOf a) [] p hp with hdef | hdef
    · simp at hdef
    obtain ⟨r1, hr1, hr1p⟩ := List.mem_map.mp hdef
    have hpmem : p ∈ (refsOf a).map Ref.pay := by
      rw [← hr1p]
      exact outRefsL_pay_mem db dups0 (refsOf a) [] r1 hr1
    obtain ⟨l1, rf, l2, hsplit, hrfp, hnf⟩ := exists_first_occ (refsOf a) p hpmem
    have hhasp : db.has p = true := by
      have hx := (HF rf l1 l2 hsplit (by rw [hrfp]; exact hnf)).2
      rw [hrfp] at hx
      exact hx
    have hcarr : carriedName r1 = some (db.get_shortname p) := by
      have hx := (hsn r1 hr1).2.2 (by rw [hr1p]; exact hdp)
      rw [hr1p] at hx
      exact hx
    unfold resolvePayload
    rw [hrefs_out]
    have hfsome : ((outRefsL db dups0 (refsOf a) []).find?
        (fun r => carriedName r == some (db.get_shortname p))).isSome :=
      List.find?_isSome.mpr ⟨r1, hr1, by rw [hcarr]; exact beq_self_eq_true _⟩
    cases hf : (outRefsL db dups0 (refsOf a) []).find?
        (fun r => carriedName r == some (db.get_shortname p)) with
    | none => rw [hf] at hfsome; simp at hfsome
    | some r0 =>
      simp only [Option.map_some']
      have hr0mem := List.mem_of_find?_eq_some hf
      have hr0p := List.find?_some hf
      have hr0c : carriedName r0 = some (db.get_shortname p) := by
        rwa [beq_iff_eq] at hr0p
      have hr0parsed : parsedShortname r0 = db.get_shortname p :=
        carriedName_parsed r0 _ hr0c
      have hr0get : db.get_shortname r0.pay = db.get_shortname p := by
        rw [← (hsn r0 hr0mem).1, hr0parsed]
      have hr0pay : r0.pay = p :=
        get_shortname_injOn db hvnodup r0.pay p ((hsn r0 hr0mem).2.1) hhasp hr0get
      rw [hr0pay]

/-- Closed instance of the amended C2 theorem at
`<ref>a</ref><ref>a</ref>`. -/
theorem C2_amended_witness :
    ((payloadsOf ("<ref>a</ref><ref>a</ref>".data) : Multiset Str) =
      (payloadsOf
        ("<ref name=\"a0cc175b9c0\">a</ref><ref name=\"a0cc175b9c0\" />".data) :
        Multiset Str) +
      (outBackrefPays ["a".data] (refsOf ("<ref>a</ref><ref>a</ref>".data)) [] :
        Multiset Str)) ∧
    ∀ p ∈ outBackrefPays ["a".data] (refsOf ("<ref>a</ref><ref>a</ref>".data)) [],
      resolvePayload
        ("<ref name=\"a0cc175b9c0\">a</ref><ref name=\"a0cc175b9c0\" />".data)
        ((⟨[("a".data, "a0cc175b9c0".data)]⟩ : CitationDatabase).get_shortname p) =
        some p :=
  C2_amended_content_preservation ("<ref>a</ref><ref>a</ref>".data) _ 1 ["a".data]
    ⟨[("a".data, "a0cc175b9c0".data)]⟩ ["a".data] (by decide) (by decide)

/-! ## C6 (amended): self-closing tags and the preserved gaps -/

theorem rewriteScan_gap_kept (db : CitationDatabase) (dups : List Str) :
    ∀ (prs : List (Str × Ref)) (last : Str) (seen : List Str),
    last <:+ (rewriteScan db dups prs last seen).1 ∧
    ∀ gr ∈ prs, gr.1 <:+: (rewriteScan db dups prs last seen).1 := by
  intro prs
  induction prs with
  | nil =>
    intro last seen
    refine ⟨⟨[], rfl⟩, ?_⟩
    intro gr hgr
    simp at hgr
  | cons gr0 rest ih =>
    obtain ⟨g, r⟩ := gr0
    intro last seen
    rw [rewriteScan]
    by_cases hd : r.pay ∈ dups
    · rw [if_neg (not_not_intro hd)]
      by_cases hs2 : r.pay ∈ seen
      · rw [if_pos hs2]
        dsimp only
        obtain ⟨hsuf, hinf⟩ := ih last seen
        obtain ⟨s0, hs0⟩ := hsuf
        constructor
        · exact ⟨(g ++ backrefText (db.get_shortname r.pay)) ++ s0,
            by rw [List.append_assoc, hs0]⟩
        · intro gr hgr
          rcases List.mem_cons.mp hgr with hgr | hgr
          · rw [hgr]
            exact ⟨[], backrefText (db.get_shortname r.pay) ++
              (rewriteScan db dups rest last seen).1, by simp⟩
          · obtain ⟨s1, t1, hst⟩ := hinf gr hgr
            exact ⟨(g ++ backrefText (db.get_shortname r.pay)) ++ s1, t1,
              by rw [List.append_assoc, ← hst]; simp⟩
      · rw [if_neg hs2]
        dsimp only
        obtain ⟨hsuf, hinf⟩ := ih last (seen ++ [r.pay])
        obtain ⟨s0, hs0⟩ := hsuf
        constructor
        · exact ⟨(g ++ (if !has_name_attribute r then
            namedTagText (db.get_shortname r.pay) r.pay else r.text)) ++ s0,
            by rw [List.append_assoc, hs0]⟩
        · intro gr hgr
          rcases List.mem_cons.mp hgr with hgr | hgr
          · rw [hgr]
            exact ⟨[], (if !has_name_attribute r then
              namedTagText (db.get_shortname r.pay) r.pay else r.text) ++
              (rewriteScan db dups rest last (seen ++ [r.pay])).1, by simp⟩
          · obtain ⟨s1, t1, hst⟩ := hinf gr hgr
            exact ⟨(g ++ (if !has_name_attribute r then
              namedTagText (db.get_shortname r.pay) r.pay else r.text)) ++ s1, t1,
              by rw [List.append_assoc, ← hst]; simp⟩
    · rw [if_pos hd]
      dsimp only
      obtain ⟨hsuf, hinf⟩ := ih last seen
      obtain ⟨s0, hs0⟩ := hsuf
      constructor
      · exact ⟨(g ++ r.text) ++ s0, by rw [List.append_assoc, hs0]⟩
      · intro gr hgr
        rcases List.mem_cons.mp hgr with hgr | hgr
        · rw [hgr]
          exact ⟨[], r.text ++ (rewriteScan db dups rest last seen).1, by simp⟩
        · obtain ⟨s1, t1, hst⟩ := hinf gr hgr
          exact ⟨(g ++ r.text) ++ s1, t1, by rw [List.append_assoc, ← hst]; simp⟩

/-- C6 (amended): a self-closing ref tag is never matched — wherever the
self-closing matcher succeeds, `REF_PATTERN` fails — and the text between
matched occurrences and after the last occurrence, which is where every
free-standing self-closing tag lives, is carried into the rewritten
article verbatim (each gap as a contiguous infix, the trailing text as a
suffix).  The unqualified "never altered" of the original claim fails:
a self-closing tag inside a dropped duplicate occurrence's payload is
deleted with it; see the counterexample. -/
theorem C6_amended_never_matched_gaps_kept :
    (∀ (s : Str) (p : Str × Nat), matchSelfClosingAt s = some p →
      matchRefHere s = none) ∧
    (∀ (a out : Str) (cnt : Nat) (dups : List Str),
      merge a = some (out, cnt, dups) →
      (scanRefs a).2 <:+ out ∧ ∀ gr ∈ (scanRefs a).1, gr.1 <:+: out) := by
  constructor
  · intro s p h
    unfold matchSelfClosingAt at h
    unfold matchRefHere
    split at h
    · next hp =>
      rw [if_pos hp]
      dsimp only at h ⊢
      split at h
      · next hb =>
        rw [if_pos hb]
        split at h
        · next t2 heq =>
          split at h
          · next hlast =>
            rw [if_pos hlast]
          · simp at h
        · next hne => simp at h
      · simp at h
    · simp at h
  · intro a out cnt dups h
    unfold merge at h
    cases hgd : get_duplicated_refs a ⟨[]⟩ with
    | none => rw [hgd] at h; simp at h
    | some gd =>
      rw [hgd] at h
      dsimp only at h
      simp only [Option.some.injEq, Prod.mk.injEq] at h
      obtain ⟨hout, _, _⟩ := h
      rw [← hout, merge_go_scan]
      exact rewriteScan_gap_kept gd.1 gd.2 (scanRefs a).1 (scanRefs a).2 []

/-- Closed instance of the amended C6 theorem: the tag
`<ref name="n" />` is not matched, and the gaps of
`x<ref>a</ref>y<ref>a</ref>z` survive in the merged text. -/
theorem C6_amended_witness :
    matchRefHere ("<ref name=\"n\" />".data) = none ∧
    ((scanRefs ("x<ref>a</ref>y<ref>a</ref>z".data)).2 <:+
      ("x<ref name=\"a0cc175b9c0\">a</ref>y<ref name=\"a0cc175b9c0\" />z".data) ∧
     ∀ gr ∈ (scanRefs ("x<ref>a</ref>y<ref>a</ref>z".data)).1, gr.1 <:+:
      ("x<ref name=\"a0cc175b9c0\">a</ref>y<ref name=\"a0cc175b9c0\" />z".data)) :=
  ⟨C6_amended_never_matched_gaps_kept.1 ("<ref name=\"n\" />".data)
      (" name=\"n\" /".data, 16) (by decide),
   C6_amended_never_matched_gaps_kept.2 ("x<ref>a</ref>y<ref>a</ref>z".data) _ 1
      ["a".data] (by decide)⟩
